import Mathlib

/-!
Shallow embedding of the LRU cache shard (src/util/cache.rs), the bump-pointer
arena (src/util/arena.rs) and the byte-range view type (src/util/slice.rs) of
the leveldb-rs repository, together with theorems settling the frozen claims.

Modelling conventions:
* Machine pointers of the intrusive doubly linked lists are modelled by the
  inductive `Ptr`: the null pointer, the two dummy head nodes, or a heap node
  identified by a natural number.  Dereferencing null is an error.
* `Rc` strong counts are recorded in the `refs` field of each heap node: the
  count is (1 if the table holds the entry) + (number of outstanding handles),
  plus transient clones which the operations account for at the exact program
  points where the source reads `Rc::strong_count`.
* Rust panics (failed `assert!`) are modelled as `Except.error` outcomes; the
  capacity eviction loop of `insert` is given fuel `heap.length + 1`, which is
  strictly more than the number of iterations any terminating execution can
  perform (every successful iteration frees one heap node), so `fuelExhausted`
  is reported exactly on the non-terminating executions.
* The `HashMap<Slice, _>` table is modelled twice.  `Shard` resolves it
  content-keyed — the behaviour the map contract promises when `Hash` is
  consistent with `Eq`; this is exact for executions in which every probe is
  the very `Slice` (same buffer) a binding was stored under, and it is the
  behaviour upstream LevelDB's content-hashing delivers.  `ShardA` keeps the
  keys as `SliceV` values (address and bytes) and resolves every probe as the
  binary does: bucket selection by the derived address-based `Hash` stream
  (`hmFind` / `hmErase`, under the collision-free idealization of the
  hasher), then `PartialEq` on byte content.  The derived `Hash` breaks the
  map contract (claim C10), so cross-buffer probes — `lookup` from a caller
  buffer and the eviction loop's probe built from an entry's own `key_data`
  copy — resolve differently in the two models.
* `usize` values (charges, usages, addresses) are modelled as `Nat`; the
  quantities involved never underflow in the executions considered.
-/

namespace LevelDB

/-- A raw pointer as used by the intrusive lists of `cache.rs`:
null, one of the two heap-allocated dummy head nodes, or a real entry. -/
inductive Ptr where
  | null
  | lruHead
  | inUseHead
  | node (id : Nat)
deriving DecidableEq, Repr

/-- One `LRUHandle<T>`: payload value (opaque, modelled as `Nat`), charge,
owned copy of the key bytes, the raw `next`/`prev` pointers, and the strong
count of the `Rc` holding it.  Real entries always carry a deleter. -/
structure Node where
  value : Nat
  charge : Nat
  keyData : List Nat
  next : Ptr
  prev : Ptr
  refs : Nat
deriving DecidableEq, Repr

/-- The mutex-protected state of one `LRUCache<T>` shard plus its capacity.
`lruNext/lruPrev` and `iuNext/iuPrev` are the pointer fields of the two dummy
head nodes; `heap` maps live node ids to their contents; `table` is the
`HandleTable` keyed by key bytes; `deleterLog` records every deleter
invocation `(key bytes, value)` in order. -/
structure Shard where
  capacity : Nat
  usage : Nat
  lruNext : Ptr
  lruPrev : Ptr
  iuNext : Ptr
  iuPrev : Ptr
  heap : List (Nat × Node)
  table : List (List Nat × Nat)
  nextId : Nat
  deleterLog : List (List Nat × Nat)
deriving DecidableEq, Repr

/-- Abnormal outcomes: dereferencing a null pointer, touching a freed node,
the `assert_ne!(next, prev)` in `LRUHandle::key`, the strong-count asserts of
`dec_ref` / the eviction loop, or a non-terminating eviction loop. -/
inductive Err where
  | nullDeref
  | useAfterFree
  | assertNePanic
  | assertCountPanic
  | fuelExhausted
deriving DecidableEq, Repr

/-- Decidable equality of `Except` results, used to phrase executable list
invariants. -/
instance exceptDecEq {ε α : Type} [DecidableEq ε] [DecidableEq α] :
    DecidableEq (Except ε α)
  | .ok a, .ok b =>
      if h : a = b then .isTrue (by rw [h])
      else .isFalse (fun hh => by cases hh; exact h rfl)
  | .error e, .error f =>
      if h : e = f then .isTrue (by rw [h])
      else .isFalse (fun hh => by cases hh; exact h rfl)
  | .ok _, .error _ => .isFalse (fun hh => by cases hh)
  | .error _, .ok _ => .isFalse (fun hh => by cases hh)

/-- Association-list lookup. -/
def alLookup {α β : Type} [DecidableEq α] : List (α × β) → α → Option β
  | [], _ => none
  | (a, b) :: t, k => if a = k then some b else alLookup t k

/-- Association-list update: replaces the binding of `k` if present,
otherwise appends it (the behaviour of `HashMap::insert` on the key set). -/
def alUpdate {α β : Type} [DecidableEq α] : List (α × β) → α → β → List (α × β)
  | [], k, v => [(k, v)]
  | (a, b) :: t, k, v => if a = k then (k, v) :: t else (a, b) :: alUpdate t k v

/-- Association-list removal of the binding of `k`. -/
def alErase {α β : Type} [DecidableEq α] : List (α × β) → α → List (α × β)
  | [], _ => []
  | (a, b) :: t, k => if a = k then t else (a, b) :: alErase t k

/-- Read a live heap node. -/
def getNode (s : Shard) (i : Nat) : Except Err Node :=
  match alLookup s.heap i with
  | some n => .ok n
  | none => .error .useAfterFree

/-- Read `(*p).next`. -/
def ptrNext (s : Shard) : Ptr → Except Err Ptr
  | .null => .error .nullDeref
  | .lruHead => .ok s.lruNext
  | .inUseHead => .ok s.iuNext
  | .node i => (getNode s i).map (·.next)

/-- Read `(*p).prev`. -/
def ptrPrev (s : Shard) : Ptr → Except Err Ptr
  | .null => .error .nullDeref
  | .lruHead => .ok s.lruPrev
  | .inUseHead => .ok s.iuPrev
  | .node i => (getNode s i).map (·.prev)

/-- Write `(*p).next = q`. -/
def setNext (s : Shard) : Ptr → Ptr → Except Err Shard
  | .null, _ => .error .nullDeref
  | .lruHead, q => .ok { s with lruNext := q }
  | .inUseHead, q => .ok { s with iuNext := q }
  | .node i, q => (getNode s i).map fun n =>
      { s with heap := alUpdate s.heap i { n with next := q } }

/-- Write `(*p).prev = q`. -/
def setPrev (s : Shard) : Ptr → Ptr → Except Err Shard
  | .null, _ => .error .nullDeref
  | .lruHead, q => .ok { s with lruPrev := q }
  | .inUseHead, q => .ok { s with iuPrev := q }
  | .node i, q => (getNode s i).map fun n =>
      { s with heap := alUpdate s.heap i { n with prev := q } }

/-- `LRUCache::lru_remove`:
`(*(*e).next).prev = (*e).prev; (*(*e).prev).next = (*e).next;`
(the node's own pointers are left untouched, hence stale). -/
def lruRemove (s : Shard) (e : Ptr) : Except Err Shard := do
  let en ← ptrNext s e
  let ep ← ptrPrev s e
  let s ← setPrev s en ep
  let ep2 ← ptrPrev s e
  let en2 ← ptrNext s e
  setNext s ep2 en2

/-- `LRUCache::lru_append`: make `e` the newest entry by inserting it just
before the dummy head `list`, re-reading `e`'s pointers between the four
assignments exactly as the source does. -/
def lruAppend (s : Shard) (list e : Ptr) : Except Err Shard := do
  let s ← setNext s e list
  let lp ← ptrPrev s list
  let s ← setPrev s e lp
  let ep ← ptrPrev s e
  let s ← setNext s ep e
  let en ← ptrNext s e
  setPrev s en e

/-- `impl Drop for LRUHandle`: `key()` runs first and asserts
`next != prev`; only then is the deleter invoked with the owned key bytes and
the value, and the allocation is freed.  Entries created by `insert` always
carry a deleter. -/
def dropNode (s : Shard) (i : Nat) : Except Err Shard := do
  let n ← getNode s i
  if n.next = n.prev then .error .assertNePanic
  else .ok { s with heap := alErase s.heap i,
                    deleterLog := s.deleterLog ++ [(n.keyData, n.value)] }

/-- Overwrite the strong count of node `i`. -/
def setRefs (s : Shard) (i : Nat) (r : Nat) : Except Err Shard :=
  (getNode s i).map fun n => { s with heap := alUpdate s.heap i { n with refs := r } }

/-- `LRUCache::dec_ref(lru, e)`: reads `c = Rc::strong_count(&e)`, asserts
`c > 0`, moves the node from its current list to the LRU list when `c == 2`,
then drops the consumed `Rc` (running `LRUHandle::drop` when the count
reaches zero). -/
def decRef (s : Shard) (i : Nat) : Except Err Shard := do
  let n ← getNode s i
  let c := n.refs
  if c = 0 then .error .assertCountPanic
  else do
    let s ← if c = 2 then do
        let s ← lruRemove s (.node i)
        lruAppend s .lruHead (.node i)
      else pure s
    let s ← setRefs s i (c - 1)
    if c - 1 = 0 then dropNode s i else pure s

/-- `LRUCache::inc_ref(in_use, e)`: when the table's `Rc` is the only strong
reference the node is on the LRU list; move it to the in-use list. -/
def incRef (s : Shard) (i : Nat) : Except Err Shard := do
  let n ← getNode s i
  if n.refs = 1 then do
    let s ← lruRemove s (.node i)
    lruAppend s .inUseHead (.node i)
  else pure s

/-- `LRUCache::finish_erase`: subtract the charge, unlink the node, and drop
the table's reference. -/
def finishErase (s : Shard) (i : Nat) : Except Err Shard := do
  let n ← getNode s i
  let s := { s with usage := s.usage - n.charge }
  let s ← lruRemove s (.node i)
  decRef s i

/-- The capacity eviction loop at the end of `LRUCache::insert`:
`while usage > capacity && (*lru).next != lru` take the oldest LRU node,
call its `key()` (which asserts `next != prev`), remove that key from the
table, assert the removed entry's strong count is 1 and `finish_erase` it.
When `table.remove` finds nothing the state does not change, so real
executions of that shape never terminate; the fuel reports them.
The `table.remove(&(*old).key())` probe is resolved content-keyed here —
what the map contract promises for a `Hash` consistent with `Eq`; the
binary resolves it by the derived address-based `Hash` of the entry's own
`key_data` copy and misses (see `evictLoopA`, claims C3 and C10). -/
def evictLoop (s : Shard) : Nat → Except Err Shard
  | 0 => .error .fuelExhausted
  | fuel + 1 =>
    if s.capacity < s.usage ∧ s.lruNext ≠ Ptr.lruHead then
      match s.lruNext with
      | .node oid => do
          let n ← getNode s oid
          if n.next = n.prev then .error .assertNePanic
          else
            match alLookup s.table n.keyData with
            | some tid => do
                let tn ← getNode s tid
                if tn.refs = 1 then do
                  let s := { s with table := alErase s.table n.keyData }
                  let s ← finishErase s tid
                  evictLoop s fuel
                else .error .assertCountPanic
            | none => evictLoop s fuel
      | _ => .error .nullDeref
    else .ok s

/-- `LRUCache::insert`: copy the key bytes into the new entry; when
`capacity > 0` append it to the in-use list, add its charge, install it in
the table with strong count 2 (table + returned handle) — `finish_erase`-ing
any displaced entry of the same key — and run the eviction loop.  When
`capacity == 0` the entry (with both pointers null, strong count 1) is handed
back without touching table, lists or usage.  Returns the handle's node id.
The duplicate-key displacement `table.insert(key, r)` is resolved
content-keyed here, which is exact when the second insert's key `Slice` is
the same buffer as the first's (the executions used for claims C2 and C4);
the binary displaces only a probe whose address-based hash matches the
stored key's. -/
def insertOp (s : Shard) (key : List Nat) (value charge : Nat) :
    Except Err (Shard × Nat) := do
  let id := s.nextId
  let node0 : Node :=
    { value := value, charge := charge, keyData := key,
      next := .null, prev := .null, refs := 1 }
  if 0 < s.capacity then do
    let s := { s with heap := s.heap ++ [(id, node0)], nextId := id + 1 }
    let s ← lruAppend s .inUseHead (.node id)
    let s := { s with usage := s.usage + charge }
    let s ← setRefs s id 2
    let old := alLookup s.table key
    let s := { s with table := alUpdate s.table key id }
    let s ← match old with
      | some oldId => finishErase s oldId
      | none => pure s
    let s ← evictLoop s (s.heap.length + 1)
    pure (s, id)
  else do
    let s := { s with heap := s.heap ++ [(id, node0)], nextId := id + 1 }
    let s ← evictLoop s (s.heap.length + 1)
    pure (s, id)

/-- `LRUCache::lookup`: table hit runs `inc_ref` and returns a clone of the
entry's `Rc` (one more strong reference); a miss returns `none`.
`table.get(&key)` is resolved content-keyed here — exact when the probe is
the very `Slice` the binding was stored under; the binary resolves it by
the derived address-based `Hash` and misses content-equal probes from a
different buffer (see `lookupOpA`, claims C5 and C10). -/
def lookupOp (s : Shard) (key : List Nat) : Except Err (Shard × Option Nat) :=
  match alLookup s.table key with
  | some id => do
      let s ← incRef s id
      let n ← getNode s id
      let s ← setRefs s id (n.refs + 1)
      pure (s, some id)
  | none => pure (s, none)

/-- `LRUCache::release`: `dec_ref` with the LRU head, consuming the handle. -/
def releaseOp (s : Shard) (i : Nat) : Except Err Shard :=
  decRef s i

/-- `LRUCache::new`: empty table, zero usage, both dummy heads self-linked. -/
def newShard (capacity : Nat) : Shard :=
  { capacity := capacity, usage := 0,
    lruNext := .lruHead, lruPrev := .lruHead,
    iuNext := .inUseHead, iuPrev := .inUseHead,
    heap := [], table := [], nextId := 0, deleterLog := [] }

/-- The strong count of the `Rc` behind node `i`, if the node is live. -/
def refsOf (s : Shard) (i : Nat) : Option Nat :=
  (alLookup s.heap i).map (·.refs)

/-- First pointer of a list segment: the first node, or `b` when empty. -/
def headPtr (l : List Nat) (b : Ptr) : Ptr :=
  match l with
  | [] => b
  | j :: _ => .node j

/-- Last pointer of a list segment: the last node, or `a` when empty. -/
def lastPtr (l : List Nat) (a : Ptr) : Ptr :=
  headPtr l.reverse a

/-- One of the circular doubly linked lists, viewed from its dummy head:
`isChain s a [i₁, …, iₙ] b` states that starting at `a` the `next` pointers
run through nodes `i₁ … iₙ` and reach `b`, with matching `prev` pointers all
along.  The full circular list anchored at dummy `d` is
`isChain s d ids d`. -/
def isChain (s : Shard) : Ptr → List Nat → Ptr → Bool
  | a, [], b =>
      decide (ptrNext s a = .ok b) && decide (ptrPrev s b = .ok a)
  | a, i :: l, b =>
      decide (ptrNext s a = .ok (.node i)) &&
        (decide (ptrPrev s (.node i) = .ok a) && isChain s (.node i) l b)

/-- Two shard states with identical non-pointer content: list surgery only
rewires `next`/`prev` fields, leaving charges, key bytes, values, strong
counts, the table, the usage counter and the deleter log untouched. -/
def SameShape (s s' : Shard) : Prop :=
  s'.capacity = s.capacity ∧ s'.usage = s.usage ∧ s'.table = s.table ∧
  s'.nextId = s.nextId ∧ s'.deleterLog = s.deleterLog ∧
  (∀ j, refsOf s' j = refsOf s j) ∧
  (∀ j, (alLookup s'.heap j).map Node.charge
      = (alLookup s.heap j).map Node.charge) ∧
  (∀ j, (alLookup s'.heap j).map Node.keyData
      = (alLookup s.heap j).map Node.keyData) ∧
  (∀ j, (alLookup s'.heap j).map Node.value
      = (alLookup s.heap j).map Node.value)

/-! ### Concrete executions used to settle the cache claims -/

/-- Insert an over-capacity entry into a capacity-10 shard and release its
handle: the run completes normally. -/
def overCapRun : Except Err Shard := do
  let (s, h) ← insertOp (newShard 10) [1] 0 20
  releaseOp s h

/-- Insert a key while holding the handle, then insert the same key again:
the duplicate-key path of `insert` displaces the old entry. -/
def dupInsertRun : Except Err (Shard × Nat × Nat) := do
  let (s, h1) ← insertOp (newShard 10) [1] 7 1
  let (s, h2) ← insertOp s [1] 8 1
  pure (s, h1, h2)

/-- After the duplicate-key insert, release the first (still outstanding)
handle of the displaced entry. -/
def dupThenReleaseRun : Except Err Shard := do
  let (s, h1) ← insertOp (newShard 10) [1] 7 1
  let (s, _h2) ← insertOp s [1] 8 1
  releaseOp s h1

/-- Insert on a zero-capacity shard. -/
def zeroCapIns : Except Err (Shard × Nat) :=
  insertOp (newShard 0) [9] 5 1

/-- Insert on a zero-capacity shard, then release the returned handle. -/
def zeroCapRun : Except Err Shard := do
  let (s, h) ← zeroCapIns
  releaseOp s h

/-- Insert a key/value/charge and immediately release the returned handle
(the entry stays cached, moving to the LRU list). -/
def insRel (s : Shard) (k : List Nat) (v c : Nat) : Except Err Shard := do
  let (s, h) ← insertOp s k v c
  releaseOp s h

/-- The spec scenario: capacity 100, five entries of charge 20 inserted (and
their handles released) in order A,B,C,D,E, then a sixth insert F of
charge 20. -/
def lruScenarioRun : Except Err (Shard × Nat) := do
  let s ← insRel (newShard 100) [1] 0 20
  let s ← insRel s [2] 0 20
  let s ← insRel s [3] 0 20
  let s ← insRel s [4] 0 20
  let s ← insRel s [5] 0 20
  insertOp s [6] 0 20

/-- A concrete over-capacity shard used to exercise the eviction-order
lemma of the content-keyed model: two unreferenced entries (ids 0 then 1,
oldest first) on the LRU list, usage 5 against capacity 3, so exactly the
oldest entry is evicted. -/
def contentEvictShard : Shard :=
  { capacity := 3, usage := 5,
    lruNext := .node 0, lruPrev := .node 1,
    iuNext := .inUseHead, iuPrev := .inUseHead,
    heap := [(0, { value := 9, charge := 2, keyData := [7],
                   next := .node 1, prev := .lruHead, refs := 1 }),
             (1, { value := 8, charge := 3, keyData := [4],
                   next := .lruHead, prev := .node 0, refs := 1 })],
    table := [([7], 0), ([4], 1)],
    nextId := 2, deleterLog := [] }

/-- The `(key bytes, value)` content of `contentEvictShard`'s two entries. -/
def contentEvictF : Nat → List Nat × Nat :=
  fun j => if j = 0 then ([7], 9) else ([4], 8)

/-! ### The bump-pointer arena (src/util/arena.rs) -/

/-- `BLOCK_SIZE` of arena.rs. -/
def blockSize : Nat := 4096

/-- Arena panics: the `assert!(bytes > 0)` of `allocate` and the final
alignment `assert_eq!` of `allocate_aligned`. -/
inductive ArenaErr where
  | assertPositiveBytes
  | assertAlignPanic
deriving DecidableEq, Repr

/-- The `Arena` state: bump cursor (`alloc_ptr`, address, 0 = null),
remaining bytes of the current block, the list of owned blocks as
(address, size) pairs, the running `memory_usage` estimate, and the model of
the global allocator: the next fresh 16-aligned address it will hand out
(malloc's minimum alignment on 64-bit platforms). -/
structure Arena where
  allocPtr : Nat
  allocBytesRemaining : Nat
  blocks : List (Nat × Nat)
  memoryUsage : Nat
  nextAddr : Nat
deriving DecidableEq, Repr

/-- `Arena::new`. -/
def Arena.new : Arena :=
  { allocPtr := 0, allocBytesRemaining := 0, blocks := [],
    memoryUsage := 0, nextAddr := 16 }

/-- Round up to the next multiple of 16 (model of allocator spacing). -/
def roundUp16 (n : Nat) : Nat := ((n + 15) / 16) * 16

/-- `Arena::allocate_new_block`: obtain a fresh zeroed buffer of
`blockBytes` bytes from the global allocator, record it in `blocks`, and add
`block_bytes + size_of::<usize>()` (= 8) to `memory_usage`. -/
def allocateNewBlock (a : Arena) (blockBytes : Nat) : Nat × Arena :=
  let result := a.nextAddr
  (result,
   { a with blocks := a.blocks ++ [(result, blockBytes)],
            memoryUsage := a.memoryUsage + blockBytes + 8,
            nextAddr := a.nextAddr + roundUp16 blockBytes + 16 })

/-- `Arena::allocate_fallback`: an object of more than a quarter block is
given a dedicated block of exactly its size (cursor and remaining count
untouched); otherwise a fresh standard block becomes the current block — the
remainder of the previous block is abandoned — and the request is served
from its start. -/
def allocateFallback (a : Arena) (bytes : Nat) : Nat × Arena :=
  if blockSize / 4 < bytes then
    allocateNewBlock a bytes
  else
    let (p, a) := allocateNewBlock a blockSize
    let a := { a with allocPtr := p, allocBytesRemaining := blockSize }
    let result := a.allocPtr
    let a := { a with allocPtr := a.allocPtr + bytes,
                      allocBytesRemaining := a.allocBytesRemaining - bytes }
    (result, a)

/-- `Arena::allocate`: `assert!(bytes > 0)`, then bump allocation from the
current block when it has room, otherwise the fallback path. -/
def allocate (a : Arena) (bytes : Nat) : Except ArenaErr (Nat × Arena) :=
  if bytes = 0 then .error .assertPositiveBytes
  else if bytes ≤ a.allocBytesRemaining then
    .ok (a.allocPtr,
      { a with allocPtr := a.allocPtr + bytes,
               allocBytesRemaining := a.allocBytesRemaining - bytes })
  else .ok (allocateFallback a bytes)

/-- `Arena::allocate_aligned`: `aligns = max(size_of::<usize>(), 8) = 8` on
the modelled 64-bit platform; compute the slop needed to align the cursor,
serve `bytes + slop` from the current block when it fits, otherwise fall
back; finally `assert_eq!(result & (aligns - 1), 0)`.  Note there is no
`bytes > 0` assertion on this path.  The computation is split into
`alignSlop` (padding needed to align the cursor), `alignCandidate` (the
result before the final assertion) and `allocateAligned` (the assertion). -/
def alignSlop (p : Nat) : Nat :=
  if p % 8 = 0 then 0 else 8 - p % 8

/-- The pointer/state pair `allocate_aligned` is about to return, before its
final alignment assertion: the cursor advanced past the slop when
`bytes + slop` fits in the current block, otherwise the fallback result. -/
def alignCandidate (a : Arena) (bytes : Nat) : Nat × Arena :=
  if bytes + alignSlop a.allocPtr ≤ a.allocBytesRemaining then
    (a.allocPtr + alignSlop a.allocPtr,
     { a with allocPtr := a.allocPtr + (bytes + alignSlop a.allocPtr),
              allocBytesRemaining :=
                a.allocBytesRemaining - (bytes + alignSlop a.allocPtr) })
  else allocateFallback a bytes

def allocateAligned (a : Arena) (bytes : Nat) : Except ArenaErr (Nat × Arena) :=
  if (alignCandidate a bytes).1 % 8 = 0 then .ok (alignCandidate a bytes)
  else .error .assertAlignPanic

/-! ### The byte-range view type (src/util/slice.rs) -/

/-- A `Slice` value: the raw data pointer (`data`, modelled as an address)
and the byte sequence it views (`bytes`; `size` is `bytes.length`). -/
structure SliceV where
  addr : Nat
  bytes : List Nat
deriving DecidableEq, Repr

/-- `memcmp` over two byte runs of equal length: sign of the first
difference. -/
def memcmpBytes : List Nat → List Nat → Int
  | x :: xs, y :: ys =>
      if x = y then memcmpBytes xs ys else if x < y then -1 else 1
  | _, _ => 0

/-- `Slice::compare`: `memcmp` over the first `min(size, size)` bytes, ties
broken by length.  `impl PartialEq for Slice` is
`compare(other) == Ordering::Equal`, i.e. pure byte-content equality. -/
def sliceCompare (a b : SliceV) : Ordering :=
  let minLen := min a.bytes.length b.bytes.length
  let r := memcmpBytes (a.bytes.take minLen) (b.bytes.take minLen)
  if r = 0 then
    if a.bytes.length < b.bytes.length then .lt
    else if b.bytes.length < a.bytes.length then .gt
    else .eq
  else if r < 0 then .lt
  else .gt

/-- The word stream that `#[derive(Hash)]` on `Slice` feeds to the hasher:
the fields in declaration order — the raw `data` pointer (hashed by address
by `impl Hash for *const u8`) and the `size` field.  The byte contents are
not part of the stream, so the hash value depends on the address of the
viewed buffer. -/
def sliceHashFeed (s : SliceV) : List Nat :=
  [s.addr, s.bytes.length]

/-! ### The shard as the binary runs it: the table under the derived Hash

The definitions above resolve the `HandleTable` content-keyed — correct for
same-buffer probes and for a `Hash` consistent with `Eq`.  The binary's
`HashMap<Slice, _>` selects a bucket by the derived address-based hash
stream first; the definitions below (suffix `A`) repeat the shard operations
with that resolution, so that cross-buffer executions can be settled against
what the compiled program does. -/

/-- `HashMap::get` on the `HandleTable` as the binary performs it: the
probe's bucket is selected by the hasher input stream `sliceHashFeed`
(distinct streams are modelled as distinct hash values — the collision-free
idealization of SipHash, which favours the program), and only within that
bucket are keys compared with `PartialEq` (byte content).  A stored binding
is found exactly when its key matches the probe in hash stream and in
content. -/
def hmFind (tbl : List (SliceV × Nat)) (probe : SliceV) : Option Nat :=
  match tbl with
  | [] => none
  | (k, v) :: t =>
      if sliceHashFeed k = sliceHashFeed probe ∧ sliceCompare k probe = .eq
      then some v else hmFind t probe

/-- `HashMap::remove` under the derived `Hash`: deletes the binding `hmFind`
locates, if any. -/
def hmErase (tbl : List (SliceV × Nat)) (probe : SliceV) :
    List (SliceV × Nat) :=
  match tbl with
  | [] => []
  | (k, v) :: t =>
      if sliceHashFeed k = sliceHashFeed probe ∧ sliceCompare k probe = .eq
      then t else (k, v) :: hmErase t probe

/-- One `LRUHandle<T>` as in `Node`, extended with the address of the
entry's own `key_data` buffer — the fresh allocation
`Vec::from(key.slice_data()).into_boxed_slice()` of `insert` — which is the
address the `Slice` built by `key()` carries into every table probe made on
the entry's behalf. -/
structure NodeA where
  value : Nat
  charge : Nat
  keyAddr : Nat
  keyData : List Nat
  next : Ptr
  prev : Ptr
  refs : Nat
deriving DecidableEq, Repr

/-- The shard state with the `HandleTable` as the binary keeps it: keyed by
the callers' `Slice` values (address and byte content), resolved by
`hmFind` / `hmErase`. -/
structure ShardA where
  capacity : Nat
  usage : Nat
  lruNext : Ptr
  lruPrev : Ptr
  iuNext : Ptr
  iuPrev : Ptr
  heap : List (Nat × NodeA)
  table : List (SliceV × Nat)
  deleterLog : List (List Nat × Nat)
deriving DecidableEq, Repr

def getNodeA (s : ShardA) (i : Nat) : Except Err NodeA :=
  match alLookup s.heap i with
  | some n => .ok n
  | none => .error .useAfterFree

/-- Read `(*p).next`. -/
def ptrNextA (s : ShardA) : Ptr → Except Err Ptr
  | .null => .error .nullDeref
  | .lruHead => .ok s.lruNext
  | .inUseHead => .ok s.iuNext
  | .node i => (getNodeA s i).map (·.next)

/-- Read `(*p).prev`. -/
def ptrPrevA (s : ShardA) : Ptr → Except Err Ptr
  | .null => .error .nullDeref
  | .lruHead => .ok s.lruPrev
  | .inUseHead => .ok s.iuPrev
  | .node i => (getNodeA s i).map (·.prev)

/-- Write `(*p).next = q`. -/
def setNextA (s : ShardA) : Ptr → Ptr → Except Err ShardA
  | .null, _ => .error .nullDeref
  | .lruHead, q => .ok { s with lruNext := q }
  | .inUseHead, q => .ok { s with iuNext := q }
  | .node i, q => (getNodeA s i).map fun n =>
      { s with heap := alUpdate s.heap i { n with next := q } }

/-- Write `(*p).prev = q`. -/
def setPrevA (s : ShardA) : Ptr → Ptr → Except Err ShardA
  | .null, _ => .error .nullDeref
  | .lruHead, q => .ok { s with lruPrev := q }
  | .inUseHead, q => .ok { s with iuPrev := q }
  | .node i, q => (getNodeA s i).map fun n =>
      { s with heap := alUpdate s.heap i { n with prev := q } }

/-- `LRUCache::lru_remove` on the binary-level state. -/
def lruRemoveA (s : ShardA) (e : Ptr) : Except Err ShardA := do
  let en ← ptrNextA s e
  let ep ← ptrPrevA s e
  let s ← setPrevA s en ep
  let ep2 ← ptrPrevA s e
  let en2 ← ptrNextA s e
  setNextA s ep2 en2

/-- `LRUCache::lru_append` on the binary-level state, with the source's
re-reads between the four assignments. -/
def lruAppendA (s : ShardA) (list e : Ptr) : Except Err ShardA := do
  let s ← setNextA s e list
  let lp ← ptrPrevA s list
  let s ← setPrevA s e lp
  let ep ← ptrPrevA s e
  let s ← setNextA s ep e
  let en ← ptrNextA s e
  setPrevA s en e

/-- `impl Drop for LRUHandle` on the binary-level state: `key()` asserts
`next != prev`, then the deleter runs on the owned key bytes and the value
and the allocation is freed. -/
def dropNodeA (s : ShardA) (i : Nat) : Except Err ShardA := do
  let n ← getNodeA s i
  if n.next = n.prev then .error .assertNePanic
  else .ok { s with heap := alErase s.heap i,
                    deleterLog := s.deleterLog ++ [(n.keyData, n.value)] }

/-- Overwrite the strong count of node `i`. -/
def setRefsA (s : ShardA) (i : Nat) (r : Nat) : Except Err ShardA :=
  (getNodeA s i).map fun n =>
    { s with heap := alUpdate s.heap i { n with refs := r } }

/-- `LRUCache::dec_ref` on the binary-level state. -/
def decRefA (s : ShardA) (i : Nat) : Except Err ShardA := do
  let n ← getNodeA s i
  let c := n.refs
  if c = 0 then .error .assertCountPanic
  else do
    let s ← if c = 2 then do
        let s ← lruRemoveA s (.node i)
        lruAppendA s .lruHead (.node i)
      else pure s
    let s ← setRefsA s i (c - 1)
    if c - 1 = 0 then dropNodeA s i else pure s

/-- `LRUCache::inc_ref` on the binary-level state. -/
def incRefA (s : ShardA) (i : Nat) : Except Err ShardA := do
  let n ← getNodeA s i
  if n.refs = 1 then do
    let s ← lruRemoveA s (.node i)
    lruAppendA s .inUseHead (.node i)
  else pure s

/-- `LRUCache::finish_erase` on the binary-level state. -/
def finishEraseA (s : ShardA) (i : Nat) : Except Err ShardA := do
  let n ← getNodeA s i
  let s := { s with usage := s.usage - n.charge }
  let s ← lruRemoveA s (.node i)
  decRefA s i

/-- The capacity eviction loop of `LRUCache::insert` as the binary runs it:
`while usage > capacity && (*lru).next != lru` take the oldest LRU node,
call its `key()` (assert `next != prev`, yielding a `Slice` over the node's
own `key_data` buffer), and probe `table.remove` with it under the derived
`Hash` (`hmFind` / `hmErase`); on a hit assert the removed entry's strong
count is 1 and `finish_erase` it, on a miss the iteration changes nothing
and the loop repeats; the fuel reports the resulting non-termination. -/
def evictLoopA (s : ShardA) : Nat → Except Err ShardA
  | 0 => .error .fuelExhausted
  | fuel + 1 =>
    if s.capacity < s.usage ∧ s.lruNext ≠ Ptr.lruHead then
      match s.lruNext with
      | .node oid => do
          let n ← getNodeA s oid
          if n.next = n.prev then .error .assertNePanic
          else
            match hmFind s.table ⟨n.keyAddr, n.keyData⟩ with
            | some tid => do
                let tn ← getNodeA s tid
                if tn.refs = 1 then do
                  let s := { s with
                    table := hmErase s.table ⟨n.keyAddr, n.keyData⟩ }
                  let s ← finishEraseA s tid
                  evictLoopA s fuel
                else .error .assertCountPanic
            | none => evictLoopA s fuel
      | _ => .error .nullDeref
    else .ok s

/-- `LRUCache::lookup` as the binary runs it: `table.get(&key)` resolved by
the derived `Hash` (`hmFind`); a hit runs `inc_ref` and returns one more
strong reference to the entry, a miss returns `none`. -/
def lookupOpA (s : ShardA) (key : SliceV) :
    Except Err (ShardA × Option Nat) :=
  match hmFind s.table key with
  | some id => do
      let s ← incRefA s id
      let n ← getNodeA s id
      let s ← setRefsA s id (n.refs + 1)
      pure (s, some id)
  | none => pure (s, none)

/-- The binary-level state of the C3 scenario at the moment the sixth
insert (F) enters the eviction loop: A..E (nodes 0..4, key bytes [1]..[5],
charge 20 each, strong count 1) sit on the LRU list oldest first, F (node
5, key bytes [6], strong count 2) is alone on the in-use list, usage is
120 against capacity 100, and the table holds the six bindings under the
callers' `Slice` keys (addresses 16, 32, .., 96), while each entry's own
`key_data` copy lives at the distinct fresh address 1000 + 16·id. -/
def c3BinShard : ShardA :=
  { capacity := 100, usage := 120,
    lruNext := .node 0, lruPrev := .node 4,
    iuNext := .node 5, iuPrev := .node 5,
    heap := [
      (0, { value := 0, charge := 20, keyAddr := 1000, keyData := [1],
            next := .node 1, prev := .lruHead, refs := 1 }),
      (1, { value := 1, charge := 20, keyAddr := 1016, keyData := [2],
            next := .node 2, prev := .node 0, refs := 1 }),
      (2, { value := 2, charge := 20, keyAddr := 1032, keyData := [3],
            next := .node 3, prev := .node 1, refs := 1 }),
      (3, { value := 3, charge := 20, keyAddr := 1048, keyData := [4],
            next := .node 4, prev := .node 2, refs := 1 }),
      (4, { value := 4, charge := 20, keyAddr := 1064, keyData := [5],
            next := .lruHead, prev := .node 3, refs := 1 }),
      (5, { value := 5, charge := 20, keyAddr := 1080, keyData := [6],
            next := .inUseHead, prev := .inUseHead, refs := 2 })],
    table := [(⟨16, [1]⟩, 0), (⟨32, [2]⟩, 1), (⟨48, [3]⟩, 2),
              (⟨64, [4]⟩, 3), (⟨80, [5]⟩, 4), (⟨96, [6]⟩, 5)],
    deleterLog := [] }

/-- A binary-level shard holding one live entry: node 0 (value 5, charge 1,
strong count 1, alone on the LRU list) was inserted under the caller
`Slice` at address 16 viewing bytes [7]; the entry's own `key_data` copy
lives at address 1000. -/
def c5BinShard : ShardA :=
  { capacity := 10, usage := 1,
    lruNext := .node 0, lruPrev := .node 0,
    iuNext := .inUseHead, iuPrev := .inUseHead,
    heap := [(0, { value := 5, charge := 1, keyAddr := 1000, keyData := [7],
                   next := .lruHead, prev := .lruHead, refs := 1 })],
    table := [(⟨16, [7]⟩, 0)],
    deleterLog := [] }

/-! ### General lemmas about the embedded operations -/

/-- Destructing a successful monadic bind over `Except`. -/
theorem bindOk {ε α β : Type} {x : Except ε α} {f : α → Except ε β} {b : β}
    (h : x >>= f = .ok b) : ∃ a, x = .ok a ∧ f a = .ok b := by
  cases x with
  | ok a => exact ⟨a, rfl, h⟩
  | error e => simp [Bind.bind, Except.bind] at h

theorem alLookup_update_self {α β : Type} [DecidableEq α]
    (l : List (α × β)) (k : α) (v : β) :
    alLookup (alUpdate l k v) k = some v := by
  induction l with
  | nil => simp [alLookup, alUpdate]
  | cons hd t ih =>
    obtain ⟨a, b⟩ := hd
    rw [alUpdate]
    by_cases h : a = k
    · rw [if_pos h, alLookup, if_pos rfl]
    · rw [if_neg h, alLookup, if_neg h, ih]

theorem alLookup_update_ne {α β : Type} [DecidableEq α]
    (l : List (α × β)) (k k' : α) (v : β) (h : k' ≠ k) :
    alLookup (alUpdate l k v) k' = alLookup l k' := by
  induction l with
  | nil =>
    rw [alUpdate, alLookup, alLookup, if_neg (fun hx => h hx.symm), alLookup]
  | cons hd t ih =>
    obtain ⟨a, b⟩ := hd
    rw [alUpdate]
    by_cases hh : a = k
    · subst hh
      rw [if_pos rfl, alLookup, alLookup,
        if_neg (fun hx => h hx.symm), if_neg (fun hx => h hx.symm)]
    · rw [if_neg hh, alLookup, alLookup, ih]

theorem alLookup_erase_ne {α β : Type} [DecidableEq α]
    (l : List (α × β)) (k k' : α) (h : k' ≠ k) :
    alLookup (alErase l k) k' = alLookup l k' := by
  induction l with
  | nil => rw [alErase]
  | cons hd t ih =>
    obtain ⟨a, b⟩ := hd
    rw [alErase]
    by_cases hh : a = k
    · subst hh
      rw [if_pos rfl, alLookup, if_neg (fun hx => h hx.symm)]
    · rw [if_neg hh, alLookup, alLookup, ih]

theorem alLookup_eq_none_of_not_mem {α β : Type} [DecidableEq α]
    (l : List (α × β)) (k : α) (h : k ∉ l.map Prod.fst) :
    alLookup l k = none := by
  induction l with
  | nil => rw [alLookup]
  | cons hd t ih =>
    obtain ⟨a, b⟩ := hd
    rw [List.map_cons, List.mem_cons] at h
    push_neg at h
    rw [alLookup, if_neg (fun hx => h.1 hx.symm)]
    exact ih h.2

theorem alLookup_erase_self {α β : Type} [DecidableEq α]
    (l : List (α × β)) (k : α) (hnd : (l.map Prod.fst).Nodup) :
    alLookup (alErase l k) k = none := by
  induction l with
  | nil => rw [alErase, alLookup]
  | cons hd t ih =>
    obtain ⟨a, b⟩ := hd
    rw [List.map_cons, List.nodup_cons] at hnd
    rw [alErase]
    by_cases hh : a = k
    · subst hh
      rw [if_pos rfl]
      exact alLookup_eq_none_of_not_mem t a hnd.1
    · rw [if_neg hh, alLookup, if_neg hh]
      exact ih hnd.2

theorem getNode_heapUpd (s : Shard) (i : Nat) (m : Node) (j : Nat) :
    getNode { s with heap := alUpdate s.heap i m } j
      = if j = i then .ok m else getNode s j := by
  by_cases h : j = i
  · subst h; simp [getNode, alLookup_update_self]
  · simp [getNode, alLookup_update_ne _ _ _ _ h, h]

theorem ptrNext_node (s : Shard) (i : Nat) (n : Node)
    (h : getNode s i = .ok n) : ptrNext s (.node i) = .ok n.next := by
  rw [ptrNext, h]; rfl

theorem ptrPrev_node (s : Shard) (i : Nat) (n : Node)
    (h : getNode s i = .ok n) : ptrPrev s (.node i) = .ok n.prev := by
  rw [ptrPrev, h]; rfl

theorem getNode_of_ptrNext (s : Shard) (i : Nat) (x : Ptr)
    (h : ptrNext s (.node i) = .ok x) :
    ∃ n, getNode s i = .ok n ∧ n.next = x := by
  rw [ptrNext] at h
  cases hg : getNode s i with
  | ok n => rw [hg] at h; exact ⟨n, rfl, by cases h; rfl⟩
  | error e => rw [hg] at h; cases h

theorem getNode_of_ptrPrev (s : Shard) (i : Nat) (x : Ptr)
    (h : ptrPrev s (.node i) = .ok x) :
    ∃ n, getNode s i = .ok n ∧ n.prev = x := by
  rw [ptrPrev] at h
  cases hg : getNode s i with
  | ok n => rw [hg] at h; exact ⟨n, rfl, by cases h; rfl⟩
  | error e => rw [hg] at h; cases h

theorem ptrNext_heapUpd (s : Shard) (i : Nat) (m : Node) (p : Ptr) :
    ptrNext { s with heap := alUpdate s.heap i m } p
      = if p = .node i then .ok m.next else ptrNext s p := by
  cases p with
  | null => rfl
  | lruHead => rfl
  | inUseHead => rfl
  | node j =>
    rw [ptrNext, ptrNext, getNode_heapUpd]
    by_cases h : j = i
    · subst h; simp [Except.map]
    · simp [h]

theorem ptrPrev_heapUpd (s : Shard) (i : Nat) (m : Node) (p : Ptr) :
    ptrPrev { s with heap := alUpdate s.heap i m } p
      = if p = .node i then .ok m.prev else ptrPrev s p := by
  cases p with
  | null => rfl
  | lruHead => rfl
  | inUseHead => rfl
  | node j =>
    rw [ptrPrev, ptrPrev, getNode_heapUpd]
    by_cases h : j = i
    · subst h; simp [Except.map]
    · simp [h]

theorem sameShapeRefl (s : Shard) : SameShape s s :=
  ⟨rfl, rfl, rfl, rfl, rfl, fun _ => rfl, fun _ => rfl, fun _ => rfl, fun _ => rfl⟩

theorem sameShapeTrans {s1 s2 s3 : Shard}
    (h1 : SameShape s1 s2) (h2 : SameShape s2 s3) : SameShape s1 s3 := by
  obtain ⟨a1, b1, c1, d1, e1, f1, g1, k1, v1⟩ := h1
  obtain ⟨a2, b2, c2, d2, e2, f2, g2, k2, v2⟩ := h2
  exact ⟨a2.trans a1, b2.trans b1, c2.trans c1, d2.trans d1, e2.trans e1,
    fun j => (f2 j).trans (f1 j), fun j => (g2 j).trans (g1 j),
    fun j => (k2 j).trans (k1 j), fun j => (v2 j).trans (v1 j)⟩

theorem sameShapePtrUpd (s : Shard) (i : Nat) (n : Node) (nx pv : Ptr)
    (h : alLookup s.heap i = some n) :
    SameShape s { s with
      heap := alUpdate s.heap i { n with next := nx, prev := pv, refs := n.refs } } := by
  refine ⟨rfl, rfl, rfl, rfl, rfl, ?_, ?_, ?_, ?_⟩ <;>
    · intro j
      by_cases hj : j = i
      · subst hj
        simp [refsOf, alLookup_update_self, h]
      · simp [refsOf, alLookup_update_ne _ _ _ _ hj]

/-- Specification of `setPrev` at a pointer whose `prev` is readable:
it succeeds, sets exactly that one `prev` field, and changes nothing else. -/
theorem setPrev_spec (s : Shard) (p q x : Ptr) (hv : ptrPrev s p = .ok x) :
    ∃ s', setPrev s p q = .ok s' ∧
      ptrPrev s' p = .ok q ∧
      (∀ r, r ≠ p → ptrPrev s' r = ptrPrev s r) ∧
      (∀ r, ptrNext s' r = ptrNext s r) ∧
      SameShape s s' := by
  cases p with
  | null => rw [ptrPrev] at hv; cases hv
  | lruHead =>
    refine ⟨{ s with lruPrev := q }, rfl, rfl, ?_, ?_, ?_⟩
    · intro r hr; cases r <;> simp_all [ptrPrev, getNode]
    · intro r; cases r <;> simp [ptrNext, getNode]
    · exact ⟨rfl, rfl, rfl, rfl, rfl, fun _ => rfl, fun _ => rfl,
        fun _ => rfl, fun _ => rfl⟩
  | inUseHead =>
    refine ⟨{ s with iuPrev := q }, rfl, rfl, ?_, ?_, ?_⟩
    · intro r hr; cases r <;> simp_all [ptrPrev, getNode]
    · intro r; cases r <;> simp [ptrNext, getNode]
    · exact ⟨rfl, rfl, rfl, rfl, rfl, fun _ => rfl, fun _ => rfl,
        fun _ => rfl, fun _ => rfl⟩
  | node i =>
    obtain ⟨n, hg, _⟩ := getNode_of_ptrPrev s i x hv
    refine ⟨{ s with heap := alUpdate s.heap i { n with prev := q } }, ?_, ?_, ?_, ?_, ?_⟩
    · rw [setPrev, hg]; rfl
    · rw [ptrPrev_heapUpd, if_pos rfl]
    · intro r hr; rw [ptrPrev_heapUpd, if_neg hr]
    · intro r
      rw [ptrNext_heapUpd]
      by_cases hr : r = Ptr.node i
      · subst hr
        rw [if_pos rfl, ptrNext_node s i n hg]
      · rw [if_neg hr]
    · have hal : alLookup s.heap i = some n := by
        rw [getNode] at hg
        cases hx : alLookup s.heap i <;> rw [hx] at hg
        · cases hg
        · cases hg; rfl
      exact sameShapePtrUpd s i n n.next q hal

/-- Specification of `setNext`, symmetric to `setPrev_spec`. -/
theorem setNext_spec (s : Shard) (p q x : Ptr) (hv : ptrNext s p = .ok x) :
    ∃ s', setNext s p q = .ok s' ∧
      ptrNext s' p = .ok q ∧
      (∀ r, r ≠ p → ptrNext s' r = ptrNext s r) ∧
      (∀ r, ptrPrev s' r = ptrPrev s r) ∧
      SameShape s s' := by
  cases p with
  | null => rw [ptrNext] at hv; cases hv
  | lruHead =>
    refine ⟨{ s with lruNext := q }, rfl, rfl, ?_, ?_, ?_⟩
    · intro r hr; cases r <;> simp_all [ptrNext, getNode]
    · intro r; cases r <;> simp [ptrPrev, getNode]
    · exact ⟨rfl, rfl, rfl, rfl, rfl, fun _ => rfl, fun _ => rfl,
        fun _ => rfl, fun _ => rfl⟩
  | inUseHead =>
    refine ⟨{ s with iuNext := q }, rfl, rfl, ?_, ?_, ?_⟩
    · intro r hr; cases r <;> simp_all [ptrNext, getNode]
    · intro r; cases r <;> simp [ptrPrev, getNode]
    · exact ⟨rfl, rfl, rfl, rfl, rfl, fun _ => rfl, fun _ => rfl,
        fun _ => rfl, fun _ => rfl⟩
  | node i =>
    obtain ⟨n, hg, _⟩ := getNode_of_ptrNext s i x hv
    refine ⟨{ s with heap := alUpdate s.heap i { n with next := q } }, ?_, ?_, ?_, ?_, ?_⟩
    · rw [setNext, hg]; rfl
    · rw [ptrNext_heapUpd, if_pos rfl]
    · intro r hr; rw [ptrNext_heapUpd, if_neg hr]
    · intro r
      rw [ptrPrev_heapUpd]
      by_cases hr : r = Ptr.node i
      · subst hr
        rw [if_pos rfl, ptrPrev_node s i n hg]
      · rw [if_neg hr]
    · have hal : alLookup s.heap i = some n := by
        rw [getNode] at hg
        cases hx : alLookup s.heap i <;> rw [hx] at hg
        · cases hg
        · cases hg; rfl
      exact sameShapePtrUpd s i n q n.prev hal

theorem isChain_nil_iff (s : Shard) (a b : Ptr) :
    isChain s a [] b = true ↔
      (ptrNext s a = .ok b ∧ ptrPrev s b = .ok a) := by
  simp [isChain]

theorem isChain_cons_iff (s : Shard) (a b : Ptr) (i : Nat) (l : List Nat) :
    isChain s a (i :: l) b = true ↔
      (ptrNext s a = .ok (.node i) ∧ ptrPrev s (.node i) = .ok a ∧
        isChain s (.node i) l b = true) := by
  simp [isChain, and_assoc]

theorem lastPtr_nil (a : Ptr) : lastPtr [] a = a := rfl

theorem lastPtr_cons (j : Nat) (l : List Nat) (a : Ptr) :
    lastPtr (j :: l) a = lastPtr l (.node j) := by
  rw [lastPtr, lastPtr, List.reverse_cons]
  cases hl : l.reverse with
  | nil =>
    rw [List.reverse_eq_nil_iff] at hl
    subst hl
    rfl
  | cons m t => rfl

/-- The first link of a chain: `a.next` points at the first node (or at the
stop pointer when the segment is empty). -/
theorem chain_first (s : Shard) (a b : Ptr) (l : List Nat)
    (h : isChain s a l b = true) : ptrNext s a = .ok (headPtr l b) := by
  cases l with
  | nil => exact ((isChain_nil_iff s a b).mp h).1
  | cons i t => exact ((isChain_cons_iff s a b i t).mp h).1

/-- The first back link of a chain: the first pointer's `prev` is `a`. -/
theorem chain_first_prev (s : Shard) (a b : Ptr) (l : List Nat)
    (h : isChain s a l b = true) : ptrPrev s (headPtr l b) = .ok a := by
  cases l with
  | nil => exact ((isChain_nil_iff s a b).mp h).2
  | cons i t => exact ((isChain_cons_iff s a b i t).mp h).2.1

/-- The closing links of a chain: the last pointer's `next` is `b` and
`b.prev` points back at the last pointer. -/
theorem chain_last (s : Shard) (l : List Nat) :
    ∀ (a b : Ptr), isChain s a l b = true →
      ptrNext s (lastPtr l a) = .ok b ∧ ptrPrev s b = .ok (lastPtr l a) := by
  induction l with
  | nil =>
    intro a b h
    rw [lastPtr_nil]
    exact (isChain_nil_iff s a b).mp h
  | cons j t ih =>
    intro a b h
    obtain ⟨_, _, hrest⟩ := (isChain_cons_iff s a b j t).mp h
    rw [lastPtr_cons]
    exact ih (.node j) b hrest

/-- Every node of a chain is a live heap node. -/
theorem chain_heapMem (s : Shard) (l : List Nat) :
    ∀ (a b : Ptr), isChain s a l b = true →
      ∀ j ∈ l, ∃ n, getNode s j = .ok n := by
  induction l with
  | nil => intro a b _ j hj; cases hj
  | cons i t ih =>
    intro a b h j hj
    obtain ⟨_, hprev, hrest⟩ := (isChain_cons_iff s a b i t).mp h
    rcases List.mem_cons.mp hj with hji | hjt
    · subst hji
      obtain ⟨n, hn, _⟩ := getNode_of_ptrPrev s j a hprev
      exact ⟨n, hn⟩
    · exact ih (.node i) b hrest j hjt

/-- A chain only reads `next` at its start and its nodes, and `prev` at its
nodes and its stop: two states agreeing there carry the same chain. -/
theorem isChain_congr (s s' : Shard) (l : List Nat) :
    ∀ (a b : Ptr),
      (∀ p, (p = a ∨ ∃ m ∈ l, p = Ptr.node m) → ptrNext s' p = ptrNext s p) →
      (∀ p, (p = b ∨ ∃ m ∈ l, p = Ptr.node m) → ptrPrev s' p = ptrPrev s p) →
      isChain s' a l b = isChain s a l b := by
  induction l with
  | nil =>
    intro a b hn hp
    simp only [isChain]
    rw [hn a (Or.inl rfl), hp b (Or.inl rfl)]
  | cons i t ih =>
    intro a b hn hp
    simp only [isChain]
    rw [hn a (Or.inl rfl), hp (Ptr.node i) (Or.inr ⟨i, List.mem_cons_self i t, rfl⟩),
      ih (.node i) b
        (fun p hm => hn p (Or.inr (by
          rcases hm with h1 | ⟨m, hm1, hm2⟩
          · exact ⟨i, List.mem_cons_self i t, h1⟩
          · exact ⟨m, List.mem_cons_of_mem i hm1, hm2⟩)))
        (fun p hm => hp p (by
          rcases hm with h1 | ⟨m, hm1, hm2⟩
          · exact Or.inl h1
          · exact Or.inr ⟨m, List.mem_cons_of_mem i hm1, hm2⟩))]

/-- Splitting a chain at an interior node. -/
theorem isChain_append (s : Shard) (l1 : List Nat) :
    ∀ (a b : Ptr) (j : Nat) (l2 : List Nat),
      isChain s a (l1 ++ j :: l2) b
        = (isChain s a l1 (.node j) && isChain s (.node j) l2 b) := by
  induction l1 with
  | nil =>
    intro a b j l2
    simp only [List.nil_append, isChain, Bool.and_assoc]
  | cons i t ih =>
    intro a b j l2
    simp only [List.cons_append, isChain, List.append_eq,
      ih (.node i) b j l2, Bool.and_assoc]

theorem okBind {ε α β : Type} (a : α) (f : α → Except ε β) :
    (Except.ok a >>= f : Except ε β) = f a := rfl

theorem lastPtr_nonempty (j : Nat) (t : List Nat) (a : Ptr) :
    ∃ m, m ∈ j :: t ∧ lastPtr (j :: t) a = Ptr.node m := by
  rw [lastPtr]
  cases hl : (j :: t).reverse with
  | nil => exact absurd hl (by simp)
  | cons m r =>
    refine ⟨m, ?_, rfl⟩
    have : m ∈ (j :: t).reverse := by rw [hl]; exact List.mem_cons_self m r
    exact List.mem_reverse.mp this

/-- Rewiring the closing link of a chain: if the interior of a chain from
`a` to `c` is untouched and the last pointer's `next` now goes to `q` (with
`q.prev` pointing back), the chain now runs from `a` to `q`. -/
theorem isChain_retarget (s s' : Shard) (q : Ptr) (l : List Nat) :
    ∀ (a c : Ptr),
      isChain s a l c = true →
      l.Nodup →
      (∀ m, a = Ptr.node m → m ∉ l) →
      (∀ m, q = Ptr.node m → m ∉ l) →
      (∀ p, (p = a ∨ ∃ m ∈ l, p = Ptr.node m) → p ≠ lastPtr l a →
        ptrNext s' p = ptrNext s p) →
      (∀ p, (∃ m ∈ l, p = Ptr.node m) → ptrPrev s' p = ptrPrev s p) →
      ptrNext s' (lastPtr l a) = .ok q →
      ptrPrev s' q = .ok (lastPtr l a) →
      isChain s' a l q = true := by
  induction l with
  | nil =>
    intro a c _ _ _ _ _ _ hlast hqprev
    rw [lastPtr_nil] at hlast hqprev
    exact (isChain_nil_iff s' a q).mpr ⟨hlast, hqprev⟩
  | cons j t ih =>
    intro a c h hnd ha hq hn hp hlast hqprev
    obtain ⟨hna, hpj, hrest⟩ := (isChain_cons_iff s a c j t).mp h
    rw [List.nodup_cons] at hnd
    rw [lastPtr_cons] at hlast hqprev
    refine (isChain_cons_iff s' a q j t).mpr ⟨?_, ?_, ?_⟩
    · have hne : a ≠ lastPtr (j :: t) a := by
        obtain ⟨m, hm, he⟩ := lastPtr_nonempty j t a
        rw [he]
        intro habs
        exact ha m habs hm
      rw [hn a (Or.inl rfl) hne]
      exact hna
    · rw [hp (Ptr.node j) ⟨j, List.mem_cons_self j t, rfl⟩]
      exact hpj
    · refine ih (.node j) c hrest hnd.2
        (fun m hm => by cases hm; exact fun hmem => hnd.1 hmem)
        (fun m hm => fun hmem => hq m hm (List.mem_cons_of_mem j hmem))
        (fun p hm hne => ?_) (fun p hm => ?_) hlast hqprev
      · refine hn p ?_ (by rw [lastPtr_cons]; exact hne)
        rcases hm with h1 | ⟨m, hm1, hm2⟩
        · exact Or.inr ⟨j, List.mem_cons_self j t, h1⟩
        · exact Or.inr ⟨m, List.mem_cons_of_mem j hm1, hm2⟩
      · obtain ⟨m, hm1, hm2⟩ := hm
        exact hp p ⟨m, List.mem_cons_of_mem j hm1, hm2⟩

/-- Unlinking a node from the middle of a circular list: `lru_remove`
succeeds, the chain loses exactly that node, and only the two neighbouring
pointers (`next` of the predecessor, `prev` of the successor) change.  The
removed node's own pointers are left stale, as in the source. -/
theorem chainRemove (s : Shard) (D : Ptr) (i : Nat) (pre post : List Nat)
    (hD : D = Ptr.lruHead ∨ D = Ptr.inUseHead)
    (hch : isChain s D (pre ++ i :: post) D = true)
    (hnd : (pre ++ i :: post).Nodup) :
    ∃ s', lruRemove s (.node i) = .ok s' ∧
      isChain s' D (pre ++ post) D = true ∧
      SameShape s s' ∧
      (∀ r, r ≠ lastPtr pre D → ptrNext s' r = ptrNext s r) ∧
      (∀ r, r ≠ headPtr post D → ptrPrev s' r = ptrPrev s r) := by
  have hDnode : ∀ m, D ≠ Ptr.node m := by
    rcases hD with h | h <;> (subst h; intro m habs; cases habs)
  rw [List.nodup_append] at hnd
  obtain ⟨hndpre, hndcons, hdisj⟩ := hnd
  rw [List.nodup_cons] at hndcons
  obtain ⟨hipost, hndpost⟩ := hndcons
  have hipre : i ∉ pre := fun hm => hdisj hm (List.mem_cons_self i post)
  have hsplit := (isChain_append s pre D D i post) ▸ hch
  rw [Bool.and_eq_true] at hsplit
  obtain ⟨h1, h2⟩ := hsplit
  have hien : ptrNext s (.node i) = .ok (headPtr post D) :=
    chain_first s (.node i) D post h2
  have henprev : ptrPrev s (headPtr post D) = .ok (.node i) :=
    chain_first_prev s (.node i) D post h2
  obtain ⟨hepnext, hiprev⟩ := chain_last s pre D (.node i) h1
  obtain ⟨s1, hs1eq, hs1main, hs1pframe, hs1nframe, hs1shape⟩ :=
    setPrev_spec s (headPtr post D) (lastPtr pre D) (.node i) henprev
  have hen_ne_i : headPtr post D ≠ Ptr.node i := by
    cases post with
    | nil => exact hDnode i
    | cons j t =>
      intro habs
      cases habs
      exact hipost (List.mem_cons_self _ _)
  have hep_ne_i : lastPtr pre D ≠ Ptr.node i := by
    cases pre with
    | nil => exact hDnode i
    | cons j t =>
      obtain ⟨m, hm, he⟩ := lastPtr_nonempty j t D
      rw [he]
      intro habs
      cases habs
      exact hipre hm
  have hpre2 : ptrPrev s1 (.node i) = .ok (lastPtr pre D) := by
    rw [hs1pframe (.node i) hen_ne_i.symm]  -- careful direction
    exact hiprev
  have hnext2 : ptrNext s1 (.node i) = .ok (headPtr post D) := by
    rw [hs1nframe (.node i)]
    exact hien
  have hnext1ep : ptrNext s1 (lastPtr pre D) = .ok (.node i) := by
    rw [hs1nframe (lastPtr pre D)]
    exact hepnext
  obtain ⟨s2, hs2eq, hs2main, hs2nframe, hs2pframe, hs2shape⟩ :=
    setNext_spec s1 (lastPtr pre D) (headPtr post D) (.node i) hnext1ep
  have hrun : lruRemove s (.node i) = .ok s2 := by
    simp only [lruRemove, hien, okBind, hiprev, okBind, hs1eq, okBind,
      hpre2, okBind, hnext2, okBind, hs2eq]
  have hnframe : ∀ r, r ≠ lastPtr pre D → ptrNext s2 r = ptrNext s r := by
    intro r hr
    rw [hs2nframe r hr, hs1nframe r]
  have hpframe : ∀ r, r ≠ headPtr post D → ptrPrev s2 r = ptrPrev s r := by
    intro r hr
    rw [hs2pframe r, hs1pframe r hr]
  have hlast2 : ptrNext s2 (lastPtr pre D) = .ok (headPtr post D) := hs2main
  have hqprev2 : ptrPrev s2 (headPtr post D) = .ok (lastPtr pre D) := by
    rw [hs2pframe (headPtr post D)]
    exact hs1main
  refine ⟨s2, hrun, ?_, sameShapeTrans hs1shape hs2shape, hnframe, hpframe⟩
  cases post with
  | nil =>
    rw [List.append_nil]
    refine isChain_retarget s s2 D pre D (.node i) h1 hndpre
      (fun m hm => absurd hm (hDnode m)) (fun m hm => absurd hm (hDnode m))
      (fun p _ hne => hnframe p hne) (fun p hm => ?_) hlast2 hqprev2
    · obtain ⟨m, hm1, hm2⟩ := hm
      refine hpframe p ?_
      rw [hm2]
      exact (hDnode m).symm
  | cons j post' =>
    have hjpre : j ∉ pre := fun hm => hdisj hm (List.mem_cons_of_mem i (List.mem_cons_self j post'))
    rw [isChain_append s2 pre D D j post', Bool.and_eq_true]
    constructor
    · refine isChain_retarget s s2 (.node j) pre D (.node i) h1 hndpre
        (fun m hm => absurd hm (hDnode m))
        (fun m hm => by cases hm; exact fun hmem => hjpre hmem)
        (fun p _ hne => hnframe p hne) (fun p hm => ?_) hlast2 hqprev2
      · obtain ⟨m, hm1, hm2⟩ := hm
        refine hpframe p ?_
        rw [hm2]
        intro habs
        cases habs
        exact hjpre hm1
    · obtain ⟨_, _, hrest⟩ := (isChain_cons_iff s (.node i) D j post').mp h2
      rw [List.nodup_cons] at hndpost
      rw [isChain_congr s s2 post' (.node j) D ?_ ?_]
      · exact hrest
      · intro p hm
        refine hnframe p ?_
        rcases hm with h1p | ⟨m, hm1, hm2⟩
        · subst h1p
          cases pre with
          | nil => exact (hDnode j).symm
          | cons u t =>
            obtain ⟨m, hm, he⟩ := lastPtr_nonempty u t D
            rw [he]
            intro habs
            cases habs
            exact hjpre hm
        · subst hm2
          cases pre with
          | nil => exact fun habs => (hDnode m) habs.symm
          | cons u t =>
            obtain ⟨m2, hm2', he⟩ := lastPtr_nonempty u t D
            rw [he]
            intro habs
            cases habs
            exact hdisj hm2' (List.mem_cons_of_mem i (List.mem_cons_of_mem j hm1))
      · intro p hm
        refine hpframe p ?_
        rcases hm with h1p | ⟨m, hm1, hm2⟩
        · subst h1p
          exact hDnode j
        · subst hm2
          intro habs
          cases habs
          exact hndpost.1 hm1

/-- Specification of `lru_append` splicing node `j` in just before the dummy
head `D`, whose previous newest element is `lp`: the four pointer writes of
the source are carried out, only the pointers of `j`, of `lp` (its `next`)
and of `D` (its `prev`) change, and the shard is otherwise untouched. -/
theorem lruAppend_spec (s : Shard) (D : Ptr) (j : Nat) (lp : Ptr) (n : Node)
    (hg : getNode s j = .ok n)
    (hlp : ptrPrev s D = .ok lp)
    (hlpnext : ptrNext s lp = .ok D)
    (hlpj : lp ≠ .node j)
    (hDj : D ≠ .node j) :
    ∃ s', lruAppend s D (.node j) = .ok s' ∧
      ptrNext s' (.node j) = .ok D ∧
      ptrPrev s' (.node j) = .ok lp ∧
      ptrNext s' lp = .ok (.node j) ∧
      ptrPrev s' D = .ok (.node j) ∧
      (∀ r, r ≠ .node j → r ≠ lp → ptrNext s' r = ptrNext s r) ∧
      (∀ r, r ≠ .node j → r ≠ D → ptrPrev s' r = ptrPrev s r) ∧
      SameShape s s' := by
  have hDvalid : ∃ x, ptrPrev s D = .ok x := ⟨lp, hlp⟩
  have hjnext : ptrNext s (.node j) = .ok n.next := ptrNext_node s j n hg
  obtain ⟨s1, hs1eq, hs1main, hs1nframe, hs1pframe, hs1shape⟩ :=
    setNext_spec s (.node j) D n.next hjnext
  have hlp1 : ptrPrev s1 D = .ok lp := by rw [hs1pframe D]; exact hlp
  have hjprev1 : ptrPrev s1 (.node j) = .ok n.prev := by
    rw [hs1pframe (.node j)]
    exact ptrPrev_node s j n hg
  obtain ⟨s2, hs2eq, hs2main, hs2pframe, hs2nframe, hs2shape⟩ :=
    setPrev_spec s1 (.node j) lp n.prev hjprev1
  have hjprev2 : ptrPrev s2 (.node j) = .ok lp := hs2main
  have hlpnext2 : ptrNext s2 lp = .ok D := by
    rw [hs2nframe lp, hs1nframe lp hlpj]
    exact hlpnext
  obtain ⟨s3, hs3eq, hs3main, hs3nframe, hs3pframe, hs3shape⟩ :=
    setNext_spec s2 lp (.node j) D hlpnext2
  have hjnext3 : ptrNext s3 (.node j) = .ok D := by
    rw [hs3nframe (.node j) hlpj.symm, hs2nframe (.node j)]
    exact hs1main
  have hDprev3 : ptrPrev s3 D = .ok lp := by
    rw [hs3pframe D, hs2pframe D hDj]
    exact hlp1
  obtain ⟨s4, hs4eq, hs4main, hs4pframe, hs4nframe, hs4shape⟩ :=
    setPrev_spec s3 D (.node j) lp hDprev3
  have hrun : lruAppend s D (.node j) = .ok s4 := by
    simp only [lruAppend, hs1eq, okBind, hlp1, okBind, hs2eq, okBind,
      hjprev2, okBind, hs3eq, okBind, hjnext3, okBind, hs4eq]
  refine ⟨s4, hrun, ?_, ?_, ?_, ?_, ?_, ?_, ?_⟩
  · rw [hs4nframe (.node j), hs3nframe (.node j) hlpj.symm,
      hs2nframe (.node j)]
    exact hs1main
  · rw [hs4pframe (.node j) (fun hx => hDj hx.symm), hs3pframe (.node j)]
    exact hjprev2
  · rw [hs4nframe lp]
    exact hs3main
  · exact hs4main
  · intro r hr1 hr2
    rw [hs4nframe r, hs3nframe r hr2, hs2nframe r, hs1nframe r hr1]
  · intro r hr1 hr2
    rw [hs4pframe r hr2, hs3pframe r, hs2pframe r hr1, hs1pframe r]
  · exact sameShapeTrans hs1shape
      (sameShapeTrans hs2shape (sameShapeTrans hs3shape hs4shape))

/-- Appending a fresh node at the newest end of a circular list: the chain
grows by that node, and pointers away from the spliced region are
untouched. -/
theorem chainAppendEnd (s : Shard) (D : Ptr) (U : List Nat) (j : Nat)
    (n : Node)
    (hD : D = Ptr.lruHead ∨ D = Ptr.inUseHead)
    (hch : isChain s D U D = true)
    (hndU : U.Nodup)
    (hjU : j ∉ U)
    (hg : getNode s j = .ok n) :
    ∃ s', lruAppend s D (.node j) = .ok s' ∧
      isChain s' D (U ++ [j]) D = true ∧
      (∀ r, r ≠ .node j → r ≠ lastPtr U D → ptrNext s' r = ptrNext s r) ∧
      (∀ r, r ≠ .node j → r ≠ D → ptrPrev s' r = ptrPrev s r) ∧
      SameShape s s' := by
  have hDnode : ∀ m, D ≠ Ptr.node m := by
    rcases hD with h | h <;> (subst h; intro m habs; cases habs)
  obtain ⟨hlpnext, hlp⟩ := chain_last s U D D hch
  have hlpj : lastPtr U D ≠ .node j := by
    cases U with
    | nil => exact hDnode j
    | cons u t =>
      obtain ⟨m, hm, he⟩ := lastPtr_nonempty u t D
      rw [he]
      intro habs
      cases habs
      exact hjU hm
  obtain ⟨s', hrun, hjn, hjp, hlpn, hDp, hnframe, hpframe, hshape⟩ :=
    lruAppend_spec s D j (lastPtr U D) n hg hlp hlpnext hlpj (hDnode j)
  refine ⟨s', hrun, ?_, hnframe, hpframe, hshape⟩
  rw [isChain_append s' U D D j [], Bool.and_eq_true]
  constructor
  · refine isChain_retarget s s' (.node j) U D D hch hndU
      (fun m hm => absurd hm (hDnode m))
      (fun m hm => by cases hm; exact hjU)
      (fun p hm hne => ?_) (fun p hm => ?_) hlpn hjp
    · refine hnframe p ?_ hne
      rcases hm with h1 | ⟨m, hm1, hm2⟩
      · subst h1; exact hDnode j
      · subst hm2
        intro habs
        cases habs
        exact hjU hm1
    · obtain ⟨m, hm1, hm2⟩ := hm
      subst hm2
      refine hpframe (Ptr.node m) ?_ ?_
      · intro habs
        cases habs
        exact hjU hm1
      · exact (hDnode m).symm
  · exact (isChain_nil_iff s' (.node j) D).mpr ⟨hjn, hDp⟩

theorem exists_node_of_refsOf (s : Shard) (i r : Nat)
    (h : refsOf s i = some r) :
    ∃ n, alLookup s.heap i = some n ∧ n.refs = r := by
  rw [refsOf] at h
  cases hx : alLookup s.heap i with
  | none => rw [hx] at h; cases h
  | some n =>
    rw [hx] at h
    injection h with h2
    exact ⟨n, rfl, h2⟩

theorem setRefs_eq (s : Shard) (i : Nat) (n : Node) (r : Nat)
    (hal : alLookup s.heap i = some n) :
    setRefs s i r
      = .ok { s with heap := alUpdate s.heap i { n with refs := r } } := by
  rw [setRefs, getNode, hal]
  rfl

theorem ptrNext_refsUpd (s : Shard) (i : Nat) (n : Node) (r : Nat)
    (hal : alLookup s.heap i = some n) (p : Ptr) :
    ptrNext { s with heap := alUpdate s.heap i { n with refs := r } } p
      = ptrNext s p := by
  rw [ptrNext_heapUpd]
  by_cases hp : p = Ptr.node i
  · subst hp
    rw [if_pos rfl, ptrNext_node s i n (by rw [getNode, hal])]
  · rw [if_neg hp]

theorem ptrPrev_refsUpd (s : Shard) (i : Nat) (n : Node) (r : Nat)
    (hal : alLookup s.heap i = some n) (p : Ptr) :
    ptrPrev { s with heap := alUpdate s.heap i { n with refs := r } } p
      = ptrPrev s p := by
  rw [ptrPrev_heapUpd]
  by_cases hp : p = Ptr.node i
  · subst hp
    rw [if_pos rfl, ptrPrev_node s i n (by rw [getNode, hal])]
  · rw [if_neg hp]

theorem isChain_refsUpd (s : Shard) (i : Nat) (n : Node) (r : Nat)
    (hal : alLookup s.heap i = some n) (a b : Ptr) (l : List Nat) :
    isChain { s with heap := alUpdate s.heap i { n with refs := r } } a l b
      = isChain s a l b :=
  isChain_congr s _ l a b
    (fun p _ => ptrNext_refsUpd s i n r hal p)
    (fun p _ => ptrPrev_refsUpd s i n r hal p)

theorem lastPtr_cases (l : List Nat) (a : Ptr) :
    lastPtr l a = a ∨ ∃ m ∈ l, lastPtr l a = Ptr.node m := by
  cases l with
  | nil => exact Or.inl rfl
  | cons j t =>
    obtain ⟨m, hm, he⟩ := lastPtr_nonempty j t a
    exact Or.inr ⟨m, hm, he⟩

theorem headPtr_cases (l : List Nat) (b : Ptr) :
    headPtr l b = b ∨ ∃ m ∈ l, headPtr l b = Ptr.node m := by
  cases l with
  | nil => exact Or.inl rfl
  | cons j t => exact Or.inr ⟨j, List.mem_cons_self j t, rfl⟩

theorem sameShapeRefs {s s' : Shard} (h : SameShape s s') (j : Nat) :
    refsOf s' j = refsOf s j := h.2.2.2.2.2.1 j

theorem sameShapeTable {s s' : Shard} (h : SameShape s s') :
    s'.table = s.table := h.2.2.1

theorem sameShapeUsage {s s' : Shard} (h : SameShape s s') :
    s'.usage = s.usage := h.2.1

theorem sameShapeLog {s s' : Shard} (h : SameShape s s') :
    s'.deleterLog = s.deleterLog := h.2.2.2.2.1

theorem ptrNext_heapErase (s : Shard) (i : Nat) (d : List (List Nat × Nat))
    (p : Ptr) (hp : p ≠ .node i) :
    ptrNext { s with heap := alErase s.heap i, deleterLog := d } p
      = ptrNext s p := by
  cases p with
  | null => rfl
  | lruHead => rfl
  | inUseHead => rfl
  | node j =>
    have hj : j ≠ i := fun hx => hp (by rw [hx])
    rw [ptrNext, ptrNext, getNode, getNode]
    simp only [alLookup_erase_ne s.heap i j hj]

theorem ptrPrev_heapErase (s : Shard) (i : Nat) (d : List (List Nat × Nat))
    (p : Ptr) (hp : p ≠ .node i) :
    ptrPrev { s with heap := alErase s.heap i, deleterLog := d } p
      = ptrPrev s p := by
  cases p with
  | null => rfl
  | lruHead => rfl
  | inUseHead => rfl
  | node j =>
    have hj : j ≠ i := fun hx => hp (by rw [hx])
    rw [ptrPrev, ptrPrev, getNode, getNode]
    simp only [alLookup_erase_ne s.heap i j hj]

theorem isChain_scalarUpd (s : Shard) (t : List (List Nat × Nat)) (u : Nat)
    (a b : Ptr) (l : List Nat) :
    isChain { s with table := t, usage := u } a l b = isChain s a l b :=
  isChain_congr s _ l a b (fun p _ => by cases p <;> rfl)
    (fun p _ => by cases p <;> rfl)

/-- Order of capacity-driven eviction: starting from a state whose LRU list
holds the unreferenced entries `ids` (oldest first), each mapped by the
table under its own key, a normal return of the eviction loop has appended
to the deleter log the `(key, value)` pairs of some prefix of `ids`, in list
order — the oldest entry is always destroyed before any younger one. -/
theorem evictLoopOrder (fuel : Nat) :
    ∀ (s : Shard) (ids : List Nat) (f : Nat → List Nat × Nat) (s' : Shard),
      isChain s .lruHead ids .lruHead = true →
      ids.Nodup →
      (∀ j ∈ ids, ∃ n, alLookup s.heap j = some n ∧ n.refs = 1 ∧
         n.keyData = (f j).1 ∧ n.value = (f j).2 ∧
         alLookup s.table n.keyData = some j) →
      (∀ j1 ∈ ids, ∀ j2 ∈ ids, j1 ≠ j2 → (f j1).1 ≠ (f j2).1) →
      evictLoop s fuel = .ok s' →
      ∃ m, s'.deleterLog = s.deleterLog ++ (ids.take m).map f := by
  induction fuel with
  | zero =>
    intro s ids f s' _ _ _ _ h
    simp [evictLoop] at h
  | succ fuel ih =>
    intro s ids f s' hch hnd hdata hinj hrun
    rw [evictLoop] at hrun
    by_cases hc : s.capacity < s.usage ∧ s.lruNext ≠ Ptr.lruHead
    · rw [if_pos hc] at hrun
      have hlnext : s.lruNext = headPtr ids Ptr.lruHead := by
        have h1 := chain_first s .lruHead .lruHead ids hch
        rw [ptrNext] at h1
        exact Except.ok.inj h1
      cases ids with
      | nil => exact absurd hlnext hc.2
      | cons i rest =>
        have hlnode : s.lruNext = Ptr.node i := hlnext
        rw [hlnode] at hrun
        obtain ⟨ni, hali, hrefsi, hkeyi, hvali, htabi⟩ :=
          hdata i (List.mem_cons_self i rest)
        have hgni : getNode s i = .ok ni := by rw [getNode, hali]
        obtain ⟨hnexti0, _, hresti⟩ :=
          (isChain_cons_iff s .lruHead .lruHead i rest).mp hch
        have hprevi : ni.prev = Ptr.lruHead := by
          have h2 := chain_first_prev s .lruHead .lruHead (i :: rest) hch
          obtain ⟨n', hg', he'⟩ := getNode_of_ptrPrev s i Ptr.lruHead h2
          rw [hgni] at hg'
          cases hg'
          exact he'
        have hnexti : ni.next = headPtr rest Ptr.lruHead := by
          have h2 := chain_first s (.node i) .lruHead rest hresti
          obtain ⟨n', hg', he'⟩ := getNode_of_ptrNext s i _ h2
          rw [hgni] at hg'
          cases hg'
          exact he'
        rw [List.nodup_cons] at hnd
        obtain ⟨n0, hn0, hrun⟩ := bindOk hrun
        rw [hgni] at hn0
        cases hn0
        cases rest with
        | nil =>
          rw [if_pos (by rw [hnexti, hprevi]; rfl)] at hrun
          cases hrun
        | cons j rest' =>
          have hji : j ≠ i := fun hx => hnd.1 (hx ▸ List.mem_cons_self j rest')
          have hne1 : ¬(ni.next = ni.prev) := by
            rw [hnexti, hprevi]
            intro habs
            cases habs
          rw [if_neg hne1, htabi] at hrun
          obtain ⟨tn, htn, hrun⟩ := bindOk hrun
          rw [hgni] at htn
          cases htn
          rw [if_pos hrefsi] at hrun
          obtain ⟨sf, hfin, hrun⟩ := bindOk hrun
          -- the state after erasing the table binding and charging usage
          obtain ⟨nf, hnf, hfin⟩ := bindOk hfin
          have hgna : getNode
              { s with lruNext := Ptr.node i,
                       table := alErase s.table ni.keyData } i = .ok ni := hgni
          rw [hgna] at hnf
          cases hnf
          have hchb : isChain
              { s with lruNext := Ptr.node i,
                       table := alErase s.table ni.keyData,
                       usage := s.usage - ni.charge }
              .lruHead ([] ++ i :: j :: rest') .lruHead = true := by
            rw [List.nil_append,
              isChain_congr s _ (i :: j :: rest') .lruHead .lruHead ?_ ?_]
            · exact hch
            · intro p _
              cases p <;> simp [ptrNext, getNode, hlnode]
            · intro p _
              cases p <;> simp [ptrPrev, getNode]
          have hndall : (([] : List Nat) ++ i :: j :: rest').Nodup := by
            rw [List.nil_append, List.nodup_cons]
            exact hnd
          obtain ⟨sc, hrem, hchainc, hshapec, hnfrc, hpfrc⟩ :=
            chainRemove _ .lruHead i [] (j :: rest') (Or.inl rfl) hchb hndall
          obtain ⟨sc', hrem', hfin⟩ := bindOk hfin
          have hrem2 : lruRemove
              { s with lruNext := Ptr.node i,
                       table := alErase s.table ni.keyData,
                       usage := s.usage - ni.charge } (Ptr.node i)
              = .ok sc' := hrem'
          rw [hrem] at hrem2
          cases hrem2
          -- decRef on the unlinked node
          rw [decRef] at hfin
          obtain ⟨nc, hnc, hfin⟩ := bindOk hfin
          have halc : alLookup sc.heap i = some nc := by
            rw [getNode] at hnc
            cases hx : alLookup sc.heap i <;> rw [hx] at hnc
            · cases hnc
            · cases hnc; rfl
          have hrefsc : nc.refs = 1 := by
            have h1 : refsOf sc i = refsOf s i := by
              have h := sameShapeRefs hshapec i
              exact h
            rw [refsOf, refsOf, halc, hali, Option.map, Option.map] at h1
            injection h1 with h2
            rw [h2, hrefsi]
          have hncnext : nc.next = Ptr.node j := by
            have h1 : ptrNext sc (.node i) = ptrNext s (.node i) := by
              rw [hnfrc (.node i) (by
                rw [lastPtr_nil]
                intro habs
                cases habs)]
              rfl
            rw [ptrNext_node sc i nc hnc, ptrNext_node s i ni hgni, hnexti] at h1
            injection h1
          have hncprev : nc.prev = Ptr.lruHead := by
            have h1 : ptrPrev sc (.node i) = ptrPrev s (.node i) := by
              rw [hpfrc (.node i) (by
                show Ptr.node i ≠ Ptr.node j
                intro habs
                cases habs
                exact hji rfl)]
              rfl
            rw [ptrPrev_node sc i nc hnc, ptrPrev_node s i ni hgni, hprevi] at h1
            injection h1
          rw [if_neg (by omega : ¬(nc.refs = 0)),
            if_neg (by omega : ¬(nc.refs = 2))] at hfin
          obtain ⟨sd0, hd0, hfin⟩ := bindOk hfin
          cases hd0
          obtain ⟨sd, hsd, hfin⟩ := bindOk hfin
          have hfin2 : (if nc.refs - 1 = 0 then dropNode sd i else pure sd)
              = Except.ok sf := hfin
          rw [(by omega : nc.refs - 1 = 0)] at hsd
          rw [setRefs_eq sc i nc 0 halc] at hsd
          cases hsd
          rw [(by omega : nc.refs - 1 = 0), if_pos rfl, dropNode] at hfin2
          obtain ⟨nd, hnd2, hfin2⟩ := bindOk hfin2
          have hgnd : getNode
              { sc with heap := alUpdate sc.heap i { nc with refs := 0 } } i
              = .ok { nc with refs := 0 } := by
            rw [getNode_heapUpd, if_pos rfl]
          rw [hgnd] at hnd2
          cases hnd2
          rw [if_neg (by
            show ¬(nc.next = nc.prev)
            rw [hncnext, hncprev]
            intro habs
            cases habs)] at hfin2
          have hsfeq := (Except.ok.inj hfin2).symm
          rw [List.nil_append] at hchainc
          -- well-formedness of the post-iteration state for the tail
          have hchse : isChain sf .lruHead (j :: rest') .lruHead = true := by
            rw [hsfeq]
            rw [isChain_congr sc _ (j :: rest') .lruHead .lruHead ?_ ?_]
            · exact hchainc
            · intro p hm
              have hp : p ≠ Ptr.node i := by
                rcases hm with h1 | ⟨m, hm1, hm2⟩
                · subst h1; intro habs; cases habs
                · subst hm2
                  intro habs
                  cases habs
                  exact hnd.1 hm1
              rw [ptrNext_heapErase _ i _ p hp, ptrNext_refsUpd sc i nc 0 halc p]
            · intro p hm
              have hp : p ≠ Ptr.node i := by
                rcases hm with h1 | ⟨m, hm1, hm2⟩
                · subst h1; intro habs; cases habs
                · subst hm2
                  intro habs
                  cases habs
                  exact hnd.1 hm1
              rw [ptrPrev_heapErase _ i _ p hp, ptrPrev_refsUpd sc i nc 0 halc p]
          have hdata2 : ∀ m ∈ j :: rest', ∃ n,
              alLookup sf.heap m = some n ∧ n.refs = 1 ∧
              n.keyData = (f m).1 ∧ n.value = (f m).2 ∧
              alLookup sf.table n.keyData = some m := by
            rw [hsfeq]
            intro m hm
            have hmi : m ≠ i := fun hx => hnd.1 (hx ▸ hm)
            obtain ⟨nm, halm, hrefm, hkeym, hvalm, htabm⟩ :=
              hdata m (List.mem_cons_of_mem i hm)
            have hrefscm : refsOf sc m = some 1 := by
              have h1 : refsOf sc m = refsOf s m := by
                have h := sameShapeRefs hshapec m
                exact h
              rw [h1, refsOf, halm]
              simp [hrefm]
            obtain ⟨ncm, halcm, hrefcm⟩ := exists_node_of_refsOf sc m 1 hrefscm
            have hkeycm : ncm.keyData = (f m).1 := by
              have h1 : (alLookup sc.heap m).map Node.keyData
                  = (alLookup s.heap m).map Node.keyData :=
                hshapec.2.2.2.2.2.2.2.1 m
              rw [halcm, halm] at h1
              injection h1 with h2
              rw [h2, hkeym]
            have hvalcm : ncm.value = (f m).2 := by
              have h1 : (alLookup sc.heap m).map Node.value
                  = (alLookup s.heap m).map Node.value :=
                hshapec.2.2.2.2.2.2.2.2 m
              rw [halcm, halm] at h1
              injection h1 with h2
              rw [h2, hvalm]
            refine ⟨ncm, ?_, hrefcm, hkeycm, hvalcm, ?_⟩
            · show alLookup (alErase (alUpdate sc.heap i
                  { nc with refs := 0 }) i) m = some ncm
              rw [alLookup_erase_ne _ _ _ hmi,
                alLookup_update_ne _ _ _ _ hmi]
              exact halcm
            · show alLookup sc.table ncm.keyData = some m
              have htc : sc.table = alErase s.table ni.keyData := by
                have h := sameShapeTable hshapec
                exact h
              have hkdiff : (f m).1 ≠ ni.keyData := by
                rw [hkeyi]
                exact hinj m (List.mem_cons_of_mem i hm) i
                  (List.mem_cons_self i _) hmi
              rw [htc, hkeycm, alLookup_erase_ne _ _ _ hkdiff]
              rw [hkeym] at htabm
              exact htabm
          have hinj2 : ∀ j1 ∈ j :: rest', ∀ j2 ∈ j :: rest',
              j1 ≠ j2 → (f j1).1 ≠ (f j2).1 := by
            intro j1 h1 j2 h2 hne
            exact hinj j1 (List.mem_cons_of_mem i h1) j2
              (List.mem_cons_of_mem i h2) hne
          obtain ⟨m', hm'⟩ := ih sf (j :: rest') f s' hchse hnd.2 hdata2 hinj2 hrun
          refine ⟨m' + 1, ?_⟩
          rw [hm', hsfeq]
          have hlogsc : sc.deleterLog = s.deleterLog := by
            have h := sameShapeLog hshapec
            exact h
          have hkeync : nc.keyData = (f i).1 := by
            have h1 : (alLookup sc.heap i).map Node.keyData
                = (alLookup s.heap i).map Node.keyData :=
              hshapec.2.2.2.2.2.2.2.1 i
            rw [halc, hali] at h1
            injection h1 with h2
            rw [h2, hkeyi]
          have hvalnc : nc.value = (f i).2 := by
            have h1 : (alLookup sc.heap i).map Node.value
                = (alLookup s.heap i).map Node.value :=
              hshapec.2.2.2.2.2.2.2.2 i
            rw [halc, hali] at h1
            injection h1 with h2
            rw [h2, hvali]
          show (sc.deleterLog ++ [(nc.keyData, nc.value)])
              ++ ((j :: rest').take m').map f
            = s.deleterLog ++ ((i :: j :: rest').take (m' + 1)).map f
          rw [hlogsc, hkeync, hvalnc, List.take_succ_cons, List.map_cons,
            List.append_assoc, List.singleton_append]
    · rw [if_neg hc] at hrun
      cases hrun
      exact ⟨0, by rw [List.take_zero, List.map_nil, List.append_nil]⟩

/-- The eviction loop only returns normally once the charge is within
capacity or the LRU list is empty. -/
theorem evictLoopPost (fuel : Nat) :
    ∀ s s', evictLoop s fuel = .ok s' →
      s'.usage ≤ s'.capacity ∨ s'.lruNext = Ptr.lruHead := by
  induction fuel with
  | zero => intro s s' h; simp [evictLoop] at h
  | succ n ih =>
    intro s s' h
    rw [evictLoop] at h
    by_cases hc : s.capacity < s.usage ∧ s.lruNext ≠ Ptr.lruHead
    · rw [if_pos hc] at h
      cases hl : s.lruNext with
      | node oid =>
        rw [hl] at h
        obtain ⟨n1, _, h⟩ := bindOk h
        by_cases hne : n1.next = n1.prev
        · rw [if_pos hne] at h; simp at h
        · rw [if_neg hne] at h
          cases ht : alLookup s.table n1.keyData with
          | some tid =>
            rw [ht] at h
            obtain ⟨tn, _, h⟩ := bindOk h
            by_cases hr : tn.refs = 1
            · rw [if_pos hr] at h
              obtain ⟨s2, _, h⟩ := bindOk h
              exact ih _ _ h
            · rw [if_neg hr] at h; simp at h
          | none => rw [ht] at h; exact ih _ _ h
      | null => rw [hl] at h; simp at h
      | lruHead => rw [hl] at h; simp at h
      | inUseHead => rw [hl] at h; simp at h
    · rw [if_neg hc] at h
      cases h
      rcases not_and_or.mp hc with h1 | h2
      · exact Or.inl (Nat.not_lt.mp h1)
      · exact Or.inr (not_not.mp h2)

/-- Fallback-path allocations always start at the freshly obtained block
address. -/
theorem allocateFallbackFst (a : Arena) (bytes : Nat) :
    (allocateFallback a bytes).1 = a.nextAddr := by
  unfold allocateFallback allocateNewBlock
  split <;> rfl

/-- Advancing any cursor by its slop lands on an 8-aligned address. -/
theorem alignSlopAligned (p : Nat) : (p + alignSlop p) % 8 = 0 := by
  rw [alignSlop]
  by_cases hm : p % 8 = 0
  · rw [if_pos hm]; omega
  · rw [if_neg hm]; omega

/-- With 8-aligned allocator blocks, the candidate result of
`allocate_aligned` is always 8-aligned, on either path. -/
theorem alignCandidateAligned (a : Arena) (bytes : Nat)
    (ha : a.nextAddr % 8 = 0) : (alignCandidate a bytes).1 % 8 = 0 := by
  rw [alignCandidate]
  split
  · exact alignSlopAligned a.allocPtr
  · rw [allocateFallbackFst]; exact ha

/-! ### Claim theorems -/

/-- Claim C1, counterexample: on a shard of capacity 10, inserting an entry
of charge 20 and then releasing its handle is a completed operation sequence
after which the total charge (20) exceeds the capacity (10) while the single
resident entry (key [1], still in the table) has strong count 1 — no
external reference — and sits on the LRU list (the in-use list is empty).
Both disjuncts of the claimed invariant are false after the `release`. -/
theorem c1_capacity_invariant_counterexample :
    overCapRun.map (fun s =>
        (s.usage, s.capacity, alLookup s.table [1], refsOf s 0,
         s.lruNext, s.iuNext))
      = .ok (20, 10, some 0, some 1, Ptr.node 0, Ptr.inUseHead) := by
  rfl

/-- Claim C1, amended: after any completed `insert` the total charge is
within capacity or the LRU list is empty (every remaining resident entry is
externally referenced); the invariant can fail transiently after a
`release`, until the next insert. -/
theorem c1_capacity_invariant_after_insert (s : Shard) (k : List Nat)
    (v c : Nat) (s' : Shard) (id : Nat)
    (h : insertOp s k v c = .ok (s', id)) :
    s'.usage ≤ s'.capacity ∨ s'.lruNext = Ptr.lruHead := by
  rw [insertOp] at h
  split at h
  · obtain ⟨s1, _, h⟩ := bindOk h
    obtain ⟨s2, _, h⟩ := bindOk h
    cases halt : alLookup s2.table k with
    | some oldId =>
      rw [halt] at h
      obtain ⟨s3, _, h⟩ := bindOk h
      obtain ⟨s4, h4, h⟩ := bindOk h
      cases h
      exact evictLoopPost _ _ _ h4
    | none =>
      rw [halt] at h
      obtain ⟨s3, _, h⟩ := bindOk h
      obtain ⟨s4, h4, h⟩ := bindOk h
      cases h
      exact evictLoopPost _ _ _ h4
  · obtain ⟨s1, h1, h⟩ := bindOk h
    cases h
    exact evictLoopPost _ _ _ h1

/-- Claim C1, witness for the amended theorem: a concrete completed insert. -/
theorem c1_capacity_invariant_after_insert_witness :
    ({ capacity := 10, usage := 5,
       lruNext := .lruHead, lruPrev := .lruHead,
       iuNext := .node 0, iuPrev := .node 0,
       heap := [(0, { value := 0, charge := 5, keyData := [1],
                      next := .inUseHead, prev := .inUseHead, refs := 2 })],
       table := [([1], 0)], nextId := 1, deleterLog := [] } : Shard).usage ≤
      ({ capacity := 10, usage := 5,
         lruNext := .lruHead, lruPrev := .lruHead,
         iuNext := .node 0, iuPrev := .node 0,
         heap := [(0, { value := 0, charge := 5, keyData := [1],
                        next := .inUseHead, prev := .inUseHead, refs := 2 })],
         table := [([1], 0)], nextId := 1, deleterLog := [] } : Shard).capacity ∨
    ({ capacity := 10, usage := 5,
       lruNext := .lruHead, lruPrev := .lruHead,
       iuNext := .node 0, iuPrev := .node 0,
       heap := [(0, { value := 0, charge := 5, keyData := [1],
                      next := .inUseHead, prev := .inUseHead, refs := 2 })],
       table := [([1], 0)], nextId := 1, deleterLog := [] } : Shard).lruNext
      = Ptr.lruHead :=
  c1_capacity_invariant_after_insert (newShard 10) [1] 0 5 _ 0 (by rfl)

/-- Claim C2: the displaced old entry of a duplicate-key insert still has
strong count 1 (one outstanding handle, destruction pending) and its deleter
has not yet run; releasing that last handle drives the count to zero, but
the run aborts with the `assert_ne!(next, prev)` panic of `LRUHandle::key`
inside `Drop` — the deleter is skipped, contradicting exactly-once
invocation at the moment the count reaches zero. -/
theorem c2_deleter_skipped_at_refcount_zero :
    dupInsertRun.map (fun p => (p.2.1, refsOf p.1 p.2.1, p.1.deleterLog))
        = .ok (0, some 1, []) ∧
    dupThenReleaseRun = .error Err.assertNePanic := by
  exact ⟨rfl, rfl⟩

/-- The C3 scenario in the content-keyed idealization of the table — the
behaviour `insert`'s eviction loop delivers when table probes honour the
`Eq` contract, as upstream LevelDB's content hashing does (the compiled
program does not: see `c3_eviction_remove_misses_and_spins`).  First
conjunct — the scenario (capacity 100; A,B,C,D,E of charge 20 each inserted
and released in order; then F of charge 20 inserted): exactly the oldest
entry A (key [1]) is evicted and B,C,D,E,F stay resident with total charge
100.  Second conjunct — the general order property: from any state whose
LRU list holds the unreferenced entries `ids` oldest first, each mapped by
the table under its own key, a normal return of the eviction loop has
invoked the deleters of exactly a prefix of `ids` in list order. -/
theorem lruScenarioContentSpec :
    (lruScenarioRun.map (fun p =>
        (p.1.usage, p.1.table, p.1.deleterLog, p.2))
      = .ok (100, [([2], 1), ([3], 2), ([4], 3), ([5], 4), ([6], 5)],
             [([1], 0)], 5)) ∧
    (∀ (fuel : Nat) (s : Shard) (ids : List Nat) (f : Nat → List Nat × Nat)
        (s' : Shard),
      isChain s .lruHead ids .lruHead = true →
      ids.Nodup →
      (∀ j ∈ ids, ∃ n, alLookup s.heap j = some n ∧ n.refs = 1 ∧
         n.keyData = (f j).1 ∧ n.value = (f j).2 ∧
         alLookup s.table n.keyData = some j) →
      (∀ j1 ∈ ids, ∀ j2 ∈ ids, j1 ≠ j2 → (f j1).1 ≠ (f j2).1) →
      evictLoop s fuel = .ok s' →
      ∃ m, s'.deleterLog = s.deleterLog ++ (ids.take m).map f) :=
  ⟨rfl, evictLoopOrder⟩

/-- Closed check of the content-keyed order lemma: on the concrete
over-capacity shard `contentEvictShard` (entries 0 and 1 on the LRU list,
usage 5 > capacity 3) the eviction loop returns normally and its deleter
log is the image of a prefix of `[0, 1]` — here the single oldest
entry 0. -/
theorem lruScenarioContentCheck :
    ∃ s', evictLoop contentEvictShard 3 = .ok s' ∧
      ∃ m, s'.deleterLog
        = contentEvictShard.deleterLog ++ (([0, 1].take m).map contentEvictF) :=
  ⟨_, rfl, lruScenarioContentSpec.2 3 contentEvictShard [0, 1] contentEvictF _
    (by decide) (by decide)
    (by
      intro j hj
      simp only [List.mem_cons, List.not_mem_nil, or_false] at hj
      rcases hj with rfl | rfl
      · exact ⟨_, rfl, rfl, rfl, rfl, rfl⟩
      · exact ⟨_, rfl, rfl, rfl, rfl, rfl⟩)
    (by decide) rfl⟩

/-- Claim C3: on the very scenario the claim describes (state `c3BinShard`:
capacity 100, usage 120 after F's pre-loop phase, A..E unreferenced on the
LRU list oldest first, every binding live in the table) the eviction loop's
removal probe `table.remove(&(*old).key())` is built from A's own
`key_data` copy at address 1000, whose derived hash stream differs from
that of the caller `Slice` (address 16) A was stored under: the probe
misses the table even though an `Eq`-equal binding for A's bytes is
present, the `if let Some` arm is skipped, the iteration changes nothing,
and the loop never terminates.  A is never evicted and the sixth insert
never returns, against the claimed eviction of exactly the oldest entry. -/
theorem c3_eviction_remove_misses_and_spins :
    (c3BinShard.capacity < c3BinShard.usage ∧
       c3BinShard.lruNext = Ptr.node 0) ∧
    (getNodeA c3BinShard 0).map (fun n => (n.keyAddr, n.keyData))
      = .ok (1000, [1]) ∧
    (∃ kv ∈ c3BinShard.table,
       sliceCompare kv.1 ⟨1000, [1]⟩ = Ordering.eq ∧ kv.2 = 0) ∧
    hmFind c3BinShard.table ⟨1000, [1]⟩ = none ∧
    ∀ fuel, evictLoopA c3BinShard fuel = .error Err.fuelExhausted := by
  refine ⟨⟨by decide, rfl⟩, rfl, by decide, rfl, ?_⟩
  intro fuel
  induction fuel with
  | zero => rfl
  | succ n ih =>
    calc evictLoopA c3BinShard (n + 1) = evictLoopA c3BinShard n := rfl
    _ = .error Err.fuelExhausted := ih

/-- Claim C4: after the duplicate-key insert the old entry (node 0) has been
removed from the table (key [1] now maps to node 1), its charge has been
subtracted (usage is back to 1) and its destruction is deferred (strong
count 1, deleter log empty) — but it has not been left detached: `dec_ref`
re-appended it to the LRU list (`lruNext = lruPrev = node 0`), because the
count-2 test cannot distinguish an erased entry with one outstanding handle
from a resident entry losing its last external reference. -/
theorem c4_duplicate_key_old_entry_requeued :
    dupInsertRun.map (fun p =>
        (alLookup p.1.table [1], p.1.usage, refsOf p.1 0,
         p.1.lruNext, p.1.lruPrev, p.1.deleterLog))
      = .ok (some 1, 1, some 1, Ptr.node 0, Ptr.node 0, []) := by
  rfl

/-- Claim C6: inserting into a capacity-0 shard hands back a handle (node 0,
strong count 1) while the table, both lists and the usage counter stay
untouched, and the entry's `next`/`prev` pointers are both null — so
releasing the handle panics at `assert_ne!(next, prev)` inside
`LRUHandle::key` before the deleter can run, instead of destroying the
entry. -/
theorem c6_zero_capacity_release_panics :
    zeroCapIns.map (fun p =>
        (p.2, p.1.table, p.1.usage, p.1.lruNext, p.1.iuNext, refsOf p.1 0,
         (alLookup p.1.heap 0).map Node.next,
         (alLookup p.1.heap 0).map Node.prev, p.1.deleterLog))
      = .ok (0, [], 0, Ptr.lruHead, Ptr.inUseHead, some 1,
             some Ptr.null, some Ptr.null, []) ∧
    zeroCapRun = .error Err.assertNePanic := by
  exact ⟨rfl, rfl⟩

/-- Claim C7, counterexample: `allocate_aligned` performs no zero-byte
check; on a fresh arena a zero-byte aligned request returns normally — and
returns the null cursor (address 0), precisely a sentinel value — instead of
panicking. -/
theorem c7_zero_byte_counterexample :
    allocateAligned Arena.new 0 = .ok (0, Arena.new) := by
  rfl

/-- Claim C7, amended: `allocate` panics on zero-byte requests and succeeds
on every request of at least one byte; `allocate_aligned` has no zero-byte
assertion, and (given the allocator's 8-aligned blocks) succeeds on every
request. -/
theorem c7_failure_semantics (a : Arena) (bytes : Nat) (hb : 1 ≤ bytes)
    (ha : a.nextAddr % 8 = 0) :
    allocate a 0 = .error ArenaErr.assertPositiveBytes ∧
    (∃ p a2, allocate a bytes = .ok (p, a2)) ∧
    (∃ p a2, allocateAligned a bytes = .ok (p, a2)) := by
  refine ⟨rfl, ?_, ?_⟩
  · rw [allocate, if_neg (by omega)]
    split
    · exact ⟨_, _, rfl⟩
    · exact ⟨_, _, rfl⟩
  · rw [allocateAligned, if_pos (alignCandidateAligned a bytes ha)]
    exact ⟨_, _, rfl⟩

/-- Claim C7, witness: the amended statement at a fresh arena and a one-byte
request. -/
theorem c7_failure_semantics_witness :
    allocate Arena.new 0 = .error ArenaErr.assertPositiveBytes ∧
    (∃ p a2, allocate Arena.new 1 = .ok (p, a2)) ∧
    (∃ p a2, allocateAligned Arena.new 1 = .ok (p, a2)) :=
  c7_failure_semantics Arena.new 1 (by decide) (by decide)

/-- Claim C8: when a request of `bytes ≥ 1` does not fit in the current
block, `allocate` takes the fallback path.  For `bytes` above a quarter of
the 4096-byte standard block it creates a dedicated block of exactly `bytes`
bytes, leaving the bump cursor and the remaining-capacity counter unchanged;
otherwise it creates a standard 4096-byte block, abandons the remainder of
the previous block, and serves the request from the start of the fresh
block. -/
theorem c8_arena_fallback_policy (a : Arena) (bytes : Nat) (h0 : 1 ≤ bytes)
    (hb : a.allocBytesRemaining < bytes) :
    (blockSize / 4 < bytes →
      allocate a bytes = .ok (a.nextAddr,
        { a with blocks := a.blocks ++ [(a.nextAddr, bytes)],
                 memoryUsage := a.memoryUsage + bytes + 8,
                 nextAddr := a.nextAddr + roundUp16 bytes + 16 })) ∧
    (bytes ≤ blockSize / 4 →
      allocate a bytes = .ok (a.nextAddr,
        { a with allocPtr := a.nextAddr + bytes,
                 allocBytesRemaining := blockSize - bytes,
                 blocks := a.blocks ++ [(a.nextAddr, blockSize)],
                 memoryUsage := a.memoryUsage + blockSize + 8,
                 nextAddr := a.nextAddr + roundUp16 blockSize + 16 })) := by
  rw [allocate, if_neg (by omega), if_neg (by omega)]
  constructor
  · intro hbig
    rw [allocateFallback, if_pos hbig]
    rfl
  · intro hsmall
    rw [allocateFallback, if_neg (by omega)]
    rfl

/-- Claim C8, witness: a 2000-byte request (above the quarter-block
threshold) and the policy statement at a fresh arena. -/
theorem c8_arena_fallback_policy_witness :
    (blockSize / 4 < 2000 →
      allocate Arena.new 2000 = .ok (Arena.new.nextAddr,
        { Arena.new with
            blocks := Arena.new.blocks ++ [(Arena.new.nextAddr, 2000)],
            memoryUsage := Arena.new.memoryUsage + 2000 + 8,
            nextAddr := Arena.new.nextAddr + roundUp16 2000 + 16 })) ∧
    (2000 ≤ blockSize / 4 →
      allocate Arena.new 2000 = .ok (Arena.new.nextAddr,
        { Arena.new with
            allocPtr := Arena.new.nextAddr + 2000,
            allocBytesRemaining := blockSize - 2000,
            blocks := Arena.new.blocks ++ [(Arena.new.nextAddr, blockSize)],
            memoryUsage := Arena.new.memoryUsage + blockSize + 8,
            nextAddr := Arena.new.nextAddr + roundUp16 blockSize + 16 })) :=
  c8_arena_fallback_policy Arena.new 2000 (by decide) (by decide)

/-- Claim C9: with the allocator's blocks 8-aligned (16-aligned in the
model, as the system allocator guarantees), every `allocate_aligned` call
returns normally and the returned pointer is a multiple of
`max(pointer_size, 8) = 8`, on the fast path by the slop arithmetic and on
the fallback path because the fresh block address is already aligned. -/
theorem c9_aligned_allocation (a : Arena) (bytes : Nat)
    (ha : a.nextAddr % 8 = 0) :
    ∃ p a2, allocateAligned a bytes = .ok (p, a2) ∧ p % 8 = 0 := by
  rw [allocateAligned, if_pos (alignCandidateAligned a bytes ha)]
  exact ⟨_, _, rfl, alignCandidateAligned a bytes ha⟩

/-- Claim C9, witness: an aligned 24-byte allocation from a fresh arena. -/
theorem c9_aligned_allocation_witness :
    ∃ p a2, allocateAligned Arena.new 24 = .ok (p, a2) ∧ p % 8 = 0 :=
  c9_aligned_allocation Arena.new 24 (by decide)

/-- `lookup` in the content-keyed idealization of the table — exact for
probes made with the very `Slice` a binding was stored under, and the
behaviour upstream LevelDB's content hashing delivers for all probes (the
compiled program does not: see `c5_lookup_cross_buffer_miss`): it returns
none exactly on keys without a live table mapping; on a hit it returns the
mapped entry and bumps its strong count, and if the entry previously had no
external reference (strong count 1, resident on the LRU chain) it is moved
to the newest end of the in-use chain; an already-referenced entry only has
its count bumped, with both chains untouched. -/
theorem lookupContentSpec (s : Shard) (k : List Nat) :
    (alLookup s.table k = none → lookupOp s k = .ok (s, none)) ∧
    (∀ i s2 r, alLookup s.table k = some i →
      lookupOp s k = .ok (s2, r) → r = some i) ∧
    (∀ i n pre post U,
      alLookup s.table k = some i →
      alLookup s.heap i = some n →
      n.refs = 1 →
      isChain s .lruHead (pre ++ i :: post) .lruHead = true →
      isChain s .inUseHead U .inUseHead = true →
      (pre ++ i :: post).Nodup →
      U.Nodup →
      (∀ m ∈ pre ++ i :: post, m ∉ U) →
      ∃ s2, lookupOp s k = .ok (s2, some i) ∧
        refsOf s2 i = some 2 ∧
        isChain s2 .lruHead (pre ++ post) .lruHead = true ∧
        isChain s2 .inUseHead (U ++ [i]) .inUseHead = true ∧
        s2.table = s.table ∧ s2.usage = s.usage ∧
        s2.deleterLog = s.deleterLog) ∧
    (∀ i n,
      alLookup s.table k = some i →
      alLookup s.heap i = some n →
      2 ≤ n.refs →
      ∃ s2, lookupOp s k = .ok (s2, some i) ∧
        refsOf s2 i = some (n.refs + 1) ∧
        (∀ a b l, isChain s2 a l b = isChain s a l b) ∧
        s2.table = s.table ∧ s2.usage = s.usage ∧
        s2.deleterLog = s.deleterLog) := by
  refine ⟨?_, ?_, ?_, ?_⟩
  · intro h
    rw [lookupOp, h]
    rfl
  · intro i s2 r ht h
    rw [lookupOp, ht] at h
    obtain ⟨s3, _, h⟩ := bindOk h
    obtain ⟨n', _, h⟩ := bindOk h
    obtain ⟨s4, _, h⟩ := bindOk h
    cases h
    rfl
  · intro i n pre post U ht hg hr hlru hiu hnd hndU hdisj
    have hgn : getNode s i = .ok n := by rw [getNode, hg]
    have hndall := hnd
    rw [List.nodup_append] at hndall
    obtain ⟨hndpre, hndcons, hdisj2⟩ := hndall
    rw [List.nodup_cons] at hndcons
    have hipre : i ∉ pre := fun hm => hdisj2 hm (List.mem_cons_self i post)
    have hipost : i ∉ post := hndcons.1
    obtain ⟨s1, hrem, hchain1, hshape1, hnfr1, hpfr1⟩ :=
      chainRemove s .lruHead i pre post (Or.inl rfl) hlru hnd
    have hiu1 : isChain s1 .inUseHead U .inUseHead = true := by
      rw [isChain_congr s s1 U .inUseHead .inUseHead ?_ ?_]
      · exact hiu
      · intro p hm
        refine hnfr1 p ?_
        rcases lastPtr_cases pre Ptr.lruHead with he | ⟨m, hmem, he⟩ <;> rw [he]
        · rcases hm with h1 | ⟨m', _, hm2⟩
          · subst h1; intro habs; cases habs
          · subst hm2; intro habs; cases habs
        · rcases hm with h1 | ⟨m', hm1, hm2⟩
          · subst h1; intro habs; cases habs
          · subst hm2
            intro habs
            cases habs
            exact hdisj m (List.mem_append_left _ hmem) hm1
      · intro p hm
        refine hpfr1 p ?_
        rcases headPtr_cases post Ptr.lruHead with he | ⟨m, hmem, he⟩ <;> rw [he]
        · rcases hm with h1 | ⟨m', _, hm2⟩
          · subst h1; intro habs; cases habs
          · subst hm2; intro habs; cases habs
        · rcases hm with h1 | ⟨m', hm1, hm2⟩
          · subst h1; intro habs; cases habs
          · subst hm2
            intro habs
            cases habs
            exact hdisj m
              (List.mem_append_right _ (List.mem_cons_of_mem i hmem)) hm1
    have href1 : refsOf s1 i = some 1 := by
      rw [sameShapeRefs hshape1 i, refsOf, hg, Option.map, hr]
    obtain ⟨n1, hal1, _⟩ := exists_node_of_refsOf s1 i 1 href1
    have hgn1 : getNode s1 i = .ok n1 := by rw [getNode, hal1]
    have hiU : i ∉ U :=
      hdisj i (List.mem_append_right _ (List.mem_cons_self i post))
    obtain ⟨s2, happ, hchain2, hnfr2, hpfr2, hshape2⟩ :=
      chainAppendEnd s1 .inUseHead U i n1 (Or.inr rfl) hiu1 hndU hiU hgn1
    have hlru2 : isChain s2 .lruHead (pre ++ post) .lruHead = true := by
      rw [isChain_congr s1 s2 (pre ++ post) .lruHead .lruHead ?_ ?_]
      · exact hchain1
      · intro p hm
        refine hnfr2 p ?_ ?_
        · rcases hm with h1 | ⟨m', hm1, hm2⟩
          · subst h1; intro habs; cases habs
          · subst hm2
            intro habs
            cases habs
            rcases List.mem_append.mp hm1 with hmm | hmm
            · exact hipre hmm
            · exact hipost hmm
        · rcases lastPtr_cases U Ptr.inUseHead with he | ⟨m, hmem, he⟩ <;>
            rw [he]
          · rcases hm with h1 | ⟨m', _, hm2⟩
            · subst h1; intro habs; cases habs
            · subst hm2; intro habs; cases habs
          · rcases hm with h1 | ⟨m', hm1, hm2⟩
            · subst h1; intro habs; cases habs
            · subst hm2
              intro habs
              cases habs
              rcases List.mem_append.mp hm1 with hmm | hmm
              · exact hdisj m (List.mem_append_left _ hmm) hmem
              · exact hdisj m
                  (List.mem_append_right _ (List.mem_cons_of_mem i hmm)) hmem
      · intro p hm
        refine hpfr2 p ?_ ?_
        · rcases hm with h1 | ⟨m', hm1, hm2⟩
          · subst h1; intro habs; cases habs
          · subst hm2
            intro habs
            cases habs
            rcases List.mem_append.mp hm1 with hmm | hmm
            · exact hipre hmm
            · exact hipost hmm
        · rcases hm with h1 | ⟨m', _, hm2⟩
          · subst h1; intro habs; cases habs
          · subst hm2; intro habs; cases habs
    have hinc : incRef s i = .ok s2 := by
      simp only [incRef, hgn, Bind.bind, Except.bind, hr, eq_self_iff_true,
        if_true, hrem, happ]
    have href2 : refsOf s2 i = some 1 := by
      rw [sameShapeRefs hshape2 i, href1]
    obtain ⟨n2, hal2, hn2refs⟩ := exists_node_of_refsOf s2 i 1 href2
    have hgn2 : getNode s2 i = .ok n2 := by rw [getNode, hal2]
    refine ⟨{ s2 with heap := alUpdate s2.heap i { n2 with refs := n2.refs + 1 } },
      ?_, ?_, ?_, ?_, ?_, ?_, ?_⟩
    · simp only [lookupOp, ht, Bind.bind, Except.bind, hinc, hgn2,
        setRefs_eq s2 i n2 (n2.refs + 1) hal2]
      rfl
    · rw [refsOf, alLookup_update_self, Option.map, hn2refs]
    · rw [isChain_refsUpd s2 i n2 (n2.refs + 1) hal2]
      exact hlru2
    · rw [isChain_refsUpd s2 i n2 (n2.refs + 1) hal2]
      exact hchain2
    · show s2.table = s.table
      rw [sameShapeTable hshape2, sameShapeTable hshape1]
    · show s2.usage = s.usage
      rw [sameShapeUsage hshape2, sameShapeUsage hshape1]
    · show s2.deleterLog = s.deleterLog
      rw [sameShapeLog hshape2, sameShapeLog hshape1]
  · intro i n ht hg hr2
    have hgn : getNode s i = .ok n := by rw [getNode, hg]
    have hinc : incRef s i = .ok s := by
      simp only [incRef, hgn, Bind.bind, Except.bind]
      rw [if_neg (by omega)]
      rfl
    refine ⟨{ s with heap := alUpdate s.heap i { n with refs := n.refs + 1 } },
      ?_, ?_, ?_, rfl, rfl, rfl⟩
    · simp only [lookupOp, ht, Bind.bind, Except.bind, hinc, hgn,
        setRefs_eq s i n (n.refs + 1) hg]
      rfl
    · rw [refsOf, alLookup_update_self, Option.map]
    · intro a b l
      exact isChain_refsUpd s i n (n.refs + 1) hg a b l

/-- Closed check of the content-keyed lookup lemma: a shard holding one
unreferenced entry (key [1], node 0, on the LRU list); looking it up
returns the handle, bumps the count to 2 and moves the entry to the in-use
list. -/
theorem lookupContentCheck :
    ∃ s2, lookupOp
        { capacity := 10, usage := 5,
          lruNext := .node 0, lruPrev := .node 0,
          iuNext := .inUseHead, iuPrev := .inUseHead,
          heap := [(0, { value := 0, charge := 5, keyData := [1],
                         next := .lruHead, prev := .lruHead, refs := 1 })],
          table := [([1], 0)], nextId := 1, deleterLog := [] } [1]
        = .ok (s2, some 0) ∧
      refsOf s2 0 = some 2 ∧
      isChain s2 .lruHead [] .lruHead = true ∧
      isChain s2 .inUseHead ([] ++ [0]) .inUseHead = true ∧
      s2.table = [([1], 0)] ∧ s2.usage = 5 ∧ s2.deleterLog = [] :=
  (lookupContentSpec
      { capacity := 10, usage := 5,
        lruNext := .node 0, lruPrev := .node 0,
        iuNext := .inUseHead, iuPrev := .inUseHead,
        heap := [(0, { value := 0, charge := 5, keyData := [1],
                       next := .lruHead, prev := .lruHead, refs := 1 })],
        table := [([1], 0)], nextId := 1, deleterLog := [] } [1]).2.2.1
    0 { value := 0, charge := 5, keyData := [1],
        next := .lruHead, prev := .lruHead, refs := 1 } [] [] []
    (by decide) (by decide) (by decide) (by decide) (by decide)
    (by decide) (by decide) (by decide)

/-- Claim C5: the shard `c5BinShard` holds a live mapping for the byte
content [7] (stored under the caller `Slice` at address 16, entry
unreferenced on the LRU list), and a probe `Slice` over a different buffer
(address 32) with identical bytes compares equal to the stored key — yet
`lookup` returns `none` and leaves the shard untouched, because
`table.get(&key)` selects the bucket by the derived address-based hash
stream of the probe; only the probe from the original buffer hits, bumps
the count and returns the entry.  The claim's miss/hit dichotomy by key
("none exactly when the table holds no live mapping for that key") is
false of the binary. -/
theorem c5_lookup_cross_buffer_miss :
    sliceCompare ⟨32, [7]⟩ ⟨16, [7]⟩ = Ordering.eq ∧
    hmFind c5BinShard.table ⟨16, [7]⟩ = some 0 ∧
    lookupOpA c5BinShard ⟨32, [7]⟩ = .ok (c5BinShard, none) ∧
    (lookupOpA c5BinShard ⟨16, [7]⟩).map (fun p => p.2) = .ok (some 0) := by
  exact ⟨rfl, rfl, rfl, rfl⟩

/-- Claim C10: two `Slice` values viewing the identical byte sequence `[7]`
at different addresses (16 and 32) compare equal under the `PartialEq`
implementation (byte-wise `compare`), yet the streams their derived `Hash`
implementation feeds to the hasher differ, because `#[derive(Hash)]` hashes
the raw `data` pointer field rather than the viewed bytes.  Equal keys thus
hash differently, breaking the `HashMap` contract the shard's table relies
on. -/
theorem c10_slice_hash_ignores_content :
    sliceCompare ⟨16, [7]⟩ ⟨32, [7]⟩ = Ordering.eq ∧
    sliceHashFeed ⟨16, [7]⟩ ≠ sliceHashFeed ⟨32, [7]⟩ := by
  exact ⟨rfl, by decide⟩

end LevelDB
